import Mathlib

set_option maxHeartbeats 1000000

namespace Sinqtt

/-! Shallow embedding of the sinqtt MQTT-to-InfluxDB bridge (Rust).
Pure functions of the repository are translated into Lean functions;
behaviour of external crates (serde_json's float handling, the evalexpr
evaluator, the jsonpath engine, the cron parser, std float formatting)
is modelled by explicit parameter records so that the repository's own
glue code is embedded faithfully and verified against them. -/

/-- Model of a Rust `f64` value as observed by this codebase: its
std-library `Display` rendering and whether `fract() == 0.0` holds. -/
structure F64 where
  disp : String
  fractZero : Bool
deriving DecidableEq

/-- Model of `serde_json::Number` (variants `PosInt(u64)`, `NegInt(i64)`,
`Float(f64)`; `NegInt` is only used for negative values). -/
inductive JNum where
  | posInt (u : Nat)
  | negInt (i : Int)
  | float (f : F64)
deriving DecidableEq

/-- Model of `serde_json::Value`. Object entries keep insertion order. -/
inductive Json where
  | null
  | bool (b : Bool)
  | num (n : JNum)
  | str (s : String)
  | arr (elems : List Json)
  | obj (entries : List (String × Json))

/-- Largest `i64` value. -/
def i64Max : Int := 2 ^ 63 - 1

/-- `Value::as_bool`. -/
def Json.as_bool : Json → Option Bool
  | .bool b => some b
  | _ => none

/-- `Value::as_str`. -/
def Json.as_str : Json → Option String
  | .str s => some s
  | _ => none

/-- `Number::as_i64`: a `PosInt` within `i64::MAX`, any `NegInt`, never a
`Float`. -/
def JNum.as_i64 : JNum → Option Int
  | .posInt u => if (u : Int) ≤ i64Max then some (u : Int) else none
  | .negInt i => some i
  | .float _ => none

/-- `Value::as_i64`. -/
def Json.as_i64 : Json → Option Int
  | .num n => n.as_i64
  | _ => none

/-- `Number::as_u64`. -/
def JNum.as_u64 : JNum → Option Nat
  | .posInt u => some u
  | .negInt _ => none
  | .float _ => none

/-- `Value::as_u64`. -/
def Json.as_u64 : Json → Option Nat
  | .num n => n.as_u64
  | _ => none

/-- Operations that the repository uses from the std library and from
`serde_json` on `f64` values, modelled abstractly (float arithmetic and
shortest-roundtrip formatting are external to this repository).
`fromF64` models `serde_json::Value::from(f64)` (`Null` for non-finite
inputs), `jsonDisp` the (ryu) rendering of a float inside a JSON
document, `toI64` the saturating `as i64` cast, `parseF64`/`parseI64`
`str::parse`. -/
structure StdOps where
  ofNat : Nat → F64
  ofInt : Int → F64
  toI64 : F64 → Int
  parseF64 : String → Option F64
  parseI64 : String → Option Int
  fromF64 : F64 → Json
  jsonDisp : F64 → String

/-- `Number::as_f64`: every number variant converts. -/
def JNum.as_f64 (ops : StdOps) : JNum → Option F64
  | .posInt u => some (ops.ofNat u)
  | .negInt i => some (ops.ofInt i)
  | .float f => some f

/-- `Value::as_f64`. -/
def Json.as_f64 (ops : StdOps) : Json → Option F64
  | .num n => n.as_f64 ops
  | _ => none

/-- `serde_json::Value::from(i64)`: negative values use `NegInt`. -/
def Json.ofI64 (i : Int) : Json :=
  .num (if i < 0 then .negInt i else .posInt i.toNat)

/-- A concrete instance of the abstract std operations, used to state
closed (witness / counterexample) facts that do not depend on them. -/
def stdOps0 : StdOps where
  ofNat u := { disp := toString u, fractZero := true }
  ofInt i := { disp := toString i, fractZero := true }
  toI64 _ := 0
  parseF64 _ := none
  parseI64 _ := none
  fromF64 f := .num (.float f)
  jsonDisp f := f.disp

/-- Fuel-driven worker for `replaceList`; the fuel only makes the
recursion structural and never runs out when it starts at the input's
length (each step consumes at least one character). -/
def replaceListAux (pat repl : List Char) : Nat → List Char → List Char
  | _, [] => []
  | 0, s => s
  | fuel + 1, c :: rest =>
    if pat ≠ [] ∧ pat.isPrefixOf (c :: rest) then
      repl ++ replaceListAux pat repl fuel ((c :: rest).drop pat.length)
    else
      c :: replaceListAux pat repl fuel rest

/-- Model of Rust `str::replace`: replace all non-overlapping occurrences
of `pat`, scanning left to right. (The empty pattern never matches here;
every pattern the code passes is non-empty.) -/
def replaceList (pat repl s : List Char) : List Char :=
  replaceListAux pat repl s.length s

/-- Model of Rust `str::replacen(pat, repl, 1)`: replace only the first
occurrence. -/
def replaceFirstList (pat repl : List Char) : List Char → List Char
  | [] => []
  | c :: rest =>
    if pat ≠ [] ∧ pat.isPrefixOf (c :: rest) then
      repl ++ (c :: rest).drop pat.length
    else
      c :: replaceFirstList pat repl rest

/-- Whether `pat` occurs as a contiguous substring (Rust `str::contains`). -/
def occursIn (pat : List Char) : List Char → Bool
  | [] => pat.isEmpty
  | c :: rest => pat.isPrefixOf (c :: rest) || occursIn pat rest

/-- `str::replace` lifted to `String`. -/
def strReplace (s pat repl : String) : String :=
  String.mk (replaceList pat.data repl.data s.data)

/-- `str::replacen(_, _, 1)` lifted to `String`. -/
def strReplaceFirst (s pat repl : String) : String :=
  String.mk (replaceFirstList pat.data repl.data s.data)

/-- `str::contains` (substring) lifted to `String`. -/
def strContainsSub (s pat : String) : Bool :=
  occursIn pat.data s.data

/-- Rust `str::trim_start_matches('=')`-style: strip all leading copies of
one character. -/
def trimStartChar (c : Char) (s : String) : String :=
  String.mk (s.data.dropWhile (· = c))

/-- Rust `str::trim_matches('"')`-style: strip all leading and trailing
copies of one character. -/
def trimChar (c : Char) (s : String) : String :=
  String.mk (((s.data.dropWhile (· = c)).reverse.dropWhile (· = c)).reverse)

/-- Rust `str::trim`: strip leading and trailing whitespace. -/
def trimWS (s : String) : String :=
  String.mk (((s.data.dropWhile Char.isWhitespace).reverse.dropWhile Char.isWhitespace).reverse)

/-- `jsonpath_to_variable` from `src/expr/parser.rs`:
`path.replace('$', "JSON_").replace('.', "_")`. -/
def jsonpath_to_variable (path : String) : String :=
  strReplace (strReplace path "$" "JSON_") "." "_"

/-- `variable_to_jsonpath` from `src/expr/parser.rs`:
`var.replace("JSON_", "$").replace('_', ".")`. -/
def variable_to_jsonpath (v : String) : String :=
  strReplace (strReplace v "JSON_" "$") "_" "."

/-- Rust `str::starts_with('=')`-style one-character check. -/
def startsWithChar (c : Char) (s : String) : Bool :=
  match s.data with
  | x :: _ => x = c
  | [] => false

/-- Rust `str::split(sep)` (a char separator): empty pieces are kept and
the empty string splits to one empty piece. -/
def splitCharList (sep : Char) : List Char → List (List Char)
  | [] => [[]]
  | c :: rest =>
    let r := splitCharList sep rest
    if c = sep then [] :: r
    else
      match r with
      | [] => [[c]]
      | h :: t => (c :: h) :: t

/-- `topic.split('/')` lifted to `String`. -/
def splitSeg (s : String) : List String :=
  (splitCharList '/' s.data).map String.mk

/-- Rust `str::to_lowercase` (modelled per character). -/
def lowerStr (s : String) : String :=
  String.mk (s.data.map Char.toLower)

/-- Lexicographic (byte/codepoint) order on char lists: the order Rust's
`Ord for str` uses when `sort_by_key` sorts map keys. -/
def listCharLe : List Char → List Char → Bool
  | [], _ => true
  | _ :: _, [] => false
  | a :: as, b :: bs =>
    if a.toNat < b.toNat then true
    else if b.toNat < a.toNat then false
    else listCharLe as bs

/-- Lexicographic byte order on strings. -/
def strLe (a b : String) : Bool :=
  listCharLe a.data b.data

/-- Stable insertion: place `x` before the first element `y` with
`le x y` (so before equal elements, keeping earlier elements first). -/
def insertSorted {α : Type} (le : α → α → Bool) (x : α) : List α → List α
  | [] => [x]
  | y :: ys => if le x y then x :: y :: ys else y :: insertSorted le x ys

/-- Stable insertion sort. Rust's `sort_by_key` is a stable sort; for a
total transitive comparison every stable sort produces the same output,
so this models it faithfully. -/
def insertionSort {α : Type} (le : α → α → Bool) : List α → List α
  | [] => []
  | x :: xs => insertSorted le x (insertionSort le xs)

/-- `sort_by_key(|(k, _)| *k)` on the collected pairs of a `HashMap`
(keys are unique; `String` order is byte order). -/
def sortByKey {α : Type} (l : List (String × α)) : List (String × α) :=
  insertionSort (fun a b => strLe a.1 b.1) l

/-- `HashMap::insert` on the association-list model: replace the value of
an existing key, otherwise append the new entry. -/
def insertAssoc {α : Type} (l : List (String × α)) (k : String) (v : α) : List (String × α) :=
  if l.any (fun kv => kv.1 == k) then
    l.map (fun kv => if kv.1 == k then (k, v) else kv)
  else
    l ++ [(k, v)]

/-! ## Line-protocol encoder (`src/bridge/influxdb.rs`) -/

/-- Model of `FieldValue` from `src/bridge/influxdb.rs`. -/
inductive FieldValue where
  | float (f : F64)
  | int (i : Int)
  | uint (u : Nat)
  | str (s : String)
  | bool (b : Bool)
deriving DecidableEq

/-- `FieldValue::from_json`. -/
def FieldValue.from_json (ops : StdOps) : Json → Option FieldValue
  | .num n =>
    match n.as_i64 with
    | some i => some (.int i)
    | none =>
      match n.as_u64 with
      | some u => some (.uint u)
      | none => (n.as_f64 ops).map .float
  | .str s => some (.str s)
  | .bool b => some (.bool b)
  | _ => none

/-- Model of `Point` from `src/bridge/influxdb.rs`; the `HashMap`s are
association lists with unique keys in unspecified order. -/
structure Point where
  measurement : String
  tags : List (String × String)
  fields : List (String × FieldValue)
  timestamp : Option Int

/-- `escape_measurement`. -/
def escape_measurement (s : String) : String :=
  strReplace (strReplace s "," "\\,") " " "\\ "

/-- `escape_tag_key`. -/
def escape_tag_key (s : String) : String :=
  strReplace (strReplace (strReplace s "," "\\,") "=" "\\=") " " "\\ "

/-- `escape_tag_value`. -/
def escape_tag_value (s : String) : String :=
  strReplace (strReplace (strReplace s "," "\\,") "=" "\\=") " " "\\ "

/-- `escape_field_key`. -/
def escape_field_key (s : String) : String :=
  strReplace (strReplace (strReplace s "," "\\,") "=" "\\=") " " "\\ "

/-- `escape_string_value`. -/
def escape_string_value (s : String) : String :=
  strReplace (strReplace s "\\" "\\\\") "\"" "\\\""

/-- The tag pairs `to_line_protocol` renders, in rendering order: sorted
by key, entries with an empty value skipped (the Rust loop filters while
iterating the sorted pairs). -/
def renderedTags (tags : List (String × String)) : List (String × String) :=
  (sortByKey tags).filter (fun kv => !(kv.2 == ""))

/-- The field pairs of `to_line_protocol` in rendering order. -/
def renderedFields (fields : List (String × FieldValue)) : List (String × FieldValue) :=
  sortByKey fields

/-- The `match` on a field value inside `to_line_protocol`: floats with
zero fractional part print with a trailing `.0`. -/
def fieldValueStr : FieldValue → String
  | .float f => if f.fractZero then f.disp ++ ".0" else f.disp
  | .int i => toString i ++ "i"
  | .uint u => toString u ++ "u"
  | .str s => "\"" ++ escape_string_value s ++ "\""
  | .bool b => if b then "true" else "false"

/-- The `key=value` field tokens of `to_line_protocol` (`field_strs`). -/
def fieldTokens (fields : List (String × FieldValue)) : List String :=
  (renderedFields fields).map (fun kv => escape_field_key kv.1 ++ "=" ++ fieldValueStr kv.2)

/-- `Point::to_line_protocol`. -/
def Point.to_line_protocol (p : Point) : String :=
  let line := escape_measurement p.measurement
  let line := line ++ String.join ((renderedTags p.tags).map
    (fun kv => "," ++ escape_tag_key kv.1 ++ "=" ++ escape_tag_value kv.2))
  let line := line ++ " " ++ String.intercalate "," (fieldTokens p.fields)
  match p.timestamp with
  | some ts => line ++ " " ++ toString ts
  | none => line

/-! ## serde_json compact rendering (`Value::to_string`), used by the
processor's string coercion and by the dispatch loop -/

/-- The lowercase hexadecimal digit for a value below 16. -/
def hexDigit (n : Nat) : Char :=
  if n < 10 then Char.ofNat (48 + n) else Char.ofNat (87 + n)

/-- serde_json's escape of one character inside a JSON string. -/
def escapeJsonChar (c : Char) : List Char :=
  if c = '"' then ['\\', '"']
  else if c = '\\' then ['\\', '\\']
  else if c.toNat < 0x20 then
    if c = '\x08' then ['\\', 'b']
    else if c = '\x09' then ['\\', 't']
    else if c = '\x0a' then ['\\', 'n']
    else if c = '\x0c' then ['\\', 'f']
    else if c = '\x0d' then ['\\', 'r']
    else ['\\', 'u', '0', '0', hexDigit (c.toNat / 16), hexDigit (c.toNat % 16)]
  else [c]

/-- serde_json's escaping of a whole string body. -/
def escapeJson (s : String) : String :=
  String.mk (s.data.flatMap escapeJsonChar)

mutual

/-- serde_json's compact `Display` of a value (what `Value::to_string`
produces); float rendering comes from the abstract ops. -/
def jsonToString (ops : StdOps) : Json → String
  | .null => "null"
  | .bool b => if b then "true" else "false"
  | .num (.posInt u) => toString u
  | .num (.negInt i) => toString i
  | .num (.float f) => ops.jsonDisp f
  | .str s => "\"" ++ escapeJson s ++ "\""
  | .arr elems => "[" ++ jsonArrBody ops elems ++ "]"
  | .obj entries => "\x7b" ++ jsonObjBody ops entries ++ "\x7d"

/-- Comma-separated rendering of array elements. -/
def jsonArrBody (ops : StdOps) : List Json → String
  | [] => ""
  | [x] => jsonToString ops x
  | x :: y :: rest => jsonToString ops x ++ "," ++ jsonArrBody ops (y :: rest)

/-- Comma-separated rendering of object entries. -/
def jsonObjBody (ops : StdOps) : List (String × Json) → String
  | [] => ""
  | [(k, v)] => "\"" ++ escapeJson k ++ "\":" ++ jsonToString ops v
  | (k, v) :: e :: rest =>
    "\"" ++ escapeJson k ++ "\":" ++ jsonToString ops v ++ "," ++ jsonObjBody ops (e :: rest)

end

/-! ## Message processor (`src/bridge/processor.rs`) -/

/-- `Base64Decoded` from `src/bridge/processor.rs` (bytes as `Nat` in 0..256). -/
structure Base64Decoded where
  raw : List Nat
  hex : String

/-- `Base64DecodeConfig` from `src/config/types.rs`. -/
structure Base64DecodeConfig where
  source : String
  target : String

/-- `ParsedMessage` from `src/bridge/processor.rs`. -/
structure ParsedMessage where
  topic : List String
  payload : Json
  timestamp : Option Int
  qos : Nat
  base64decoded : Option (List (String × Base64Decoded))

/-- Result shape of `evalexpr::eval_with_context` as the evaluator
inspects it (`Value::Float`, `Value::Int`, anything else). -/
inductive EvalOutcome where
  | float (f : F64)
  | int (i : Int)
  | other

/-- Behaviour of the external crates the processor calls: `jsonParse` is
`serde_json::from_str`, `utf8Lossy` is `String::from_utf8_lossy`,
`query` is `jsonpath_rust`'s `Value::query` (`none` models a query
error), `b64decode` is the standard-alphabet base64 decoder, and
`evalRaw` is `evalexpr::eval_with_context` over a context of float
variables. -/
structure Externals where
  ops : StdOps
  jsonParse : String → Option Json
  utf8Lossy : List Nat → String
  query : String → Json → Option (List Json)
  b64decode : String → Option (List Nat)
  evalRaw : String → List (String × F64) → Option EvalOutcome

/-- The `hex::encode` of the hex crate: lowercase, two digits per byte. -/
def hexEncode (bytes : List Nat) : String :=
  String.mk (bytes.flatMap (fun b => [hexDigit (b / 16 % 16), hexDigit (b % 16)]))

/-- `MessageProcessor::build_message_object`. -/
def build_message_object (msg : ParsedMessage) : Json :=
  let base : List (String × Json) := [
    ("topic", .arr (msg.topic.map .str)),
    ("payload", msg.payload),
    ("timestamp", match msg.timestamp with | some t => Json.ofI64 t | none => .null),
    ("qos", .num (.posInt msg.qos))]
  match msg.base64decoded with
  | some decoded =>
    .obj (base ++ [("base64decoded", .obj (decoded.map (fun kv =>
      (kv.1, Json.obj [("raw", .arr (kv.2.raw.map (fun b => .num (.posInt b)))),
                       ("hex", .str kv.2.hex)]))))])
  | none => .obj base

/-- `MessageProcessor::extract_jsonpath`: first query result, if any. -/
def extract_jsonpath (ext : Externals) (path : String) (value : Json) : Option Json :=
  (ext.query path value).bind List.head?

/-- `MessageProcessor::decode_base64`. -/
def decode_base64 (ext : Externals) (msg : ParsedMessage) (config : Base64DecodeConfig) :
    Option Base64Decoded :=
  let msg_value := build_message_object msg
  (extract_jsonpath ext config.source msg_value).bind fun value =>
  value.as_str.bind fun encoded =>
  (ext.b64decode encoded).map fun raw =>
  { raw := raw, hex := hexEncode raw }

/-- `MessageProcessor::parse_message` (it always returns `Ok`, so the
`Result` wrapper is omitted). -/
def parse_message (ext : Externals) (base64_config : Option Base64DecodeConfig)
    (topic : String) (payload : List Nat) (qos : Nat) : ParsedMessage :=
  let topic_parts := splitSeg topic
  let payload_str := ext.utf8Lossy payload
  let payload_value :=
    if payload_str = "" then Json.null
    else (ext.jsonParse payload_str).getD (Json.str payload_str)
  let msg : ParsedMessage :=
    { topic := topic_parts, payload := payload_value, timestamp := none,
      qos := qos, base64decoded := none }
  match base64_config with
  | some config =>
    match decode_base64 ext msg config with
    | some decoded => { msg with base64decoded := some [(config.target, decoded)] }
    | none => msg
  | none => msg

/-! ## Expression parser (`src/expr/parser.rs`) -/

/-- The `\w` character class of the regexes (word characters). -/
def isWordChar (c : Char) : Bool :=
  c.isAlpha || c.isDigit || c = '_'

/-- The character class `[\w.\[\]']` of `JSONPATH_REGEX`. -/
def isJsonPathChar (c : Char) : Bool :=
  isWordChar c || c = '.' || c = '[' || c = ']' || c = '\''

/-- Fuel-driven worker for `findJsonPaths` (structural on the fuel; each
step consumes at least one character). -/
def findJsonPathsAux : Nat → List Char → List (List Char)
  | _, [] => []
  | 0, _ => []
  | fuel + 1, '$' :: '.' :: c :: rest2 =>
    if isJsonPathChar c then
      ('$' :: '.' :: (c :: rest2).takeWhile isJsonPathChar)
        :: findJsonPathsAux fuel ((c :: rest2).dropWhile isJsonPathChar)
    else
      findJsonPathsAux fuel ('.' :: c :: rest2)
  | fuel + 1, _ :: rest => findJsonPathsAux fuel rest

/-- All matches of `JSONPATH_REGEX` (`\$\.[\w.\[\]']+`) in scan order:
leftmost, non-overlapping, each maximal (the greedy `+` over a plain
character class). This is `find_iter` of the regex crate specialised to
that pattern. -/
def findJsonPaths (s : List Char) : List (List Char) :=
  findJsonPathsAux s.length s

/-- One candidate for the operand group `(\w+|\d+\.?\d*|\([^)]+\))` of
`POWER_REGEX` is a pair (matched text, remaining input). `wordCandidates`
lists the `\w+` alternatives in the engine's preference order (greedy,
then backtracking to shorter runs). -/
def wordCandidates (s : List Char) : List (List Char × List Char) :=
  let run := s.takeWhile isWordChar
  (List.range run.length).map (fun k =>
    let n := run.length - k
    (s.take n, s.drop n))

/-- The `\d+\.?\d*` alternatives in preference order: longest digit run
first; for each, the variant with `.` and a greedy-then-shorter second
digit run precedes the variant without the dot. -/
def numCandidates (s : List Char) : List (List Char × List Char) :=
  let d1 := s.takeWhile Char.isDigit
  (List.range d1.length).flatMap (fun k =>
    let a := d1.length - k
    let rest := s.drop a
    let withDot :=
      match rest with
      | '.' :: rest2 =>
        let d2 := rest2.takeWhile Char.isDigit
        (List.range (d2.length + 1)).map (fun j =>
          let b := d2.length - j
          (s.take a ++ '.' :: d2.take b, rest2.drop b))
      | _ => []
    withDot ++ [(s.take a, rest)])

/-- The `\([^)]+\)` alternative: `[^)]+` is greedy and must be followed
by `)`, so the only candidate runs to the first closing parenthesis. -/
def parenCandidate (s : List Char) : List (List Char × List Char) :=
  match s with
  | '(' :: rest =>
    let inner := rest.takeWhile (fun c => !(c == ')'))
    let after := rest.dropWhile (fun c => !(c == ')'))
    match after with
    | ')' :: rest2 => if inner.isEmpty then [] else [('(' :: inner ++ [')'], rest2)]
    | _ => []
  | _ => []

/-- All operand-group candidates in alternation preference order. -/
def groupCandidates (s : List Char) : List (List Char × List Char) :=
  wordCandidates s ++ numCandidates s ++ parenCandidate s

/-- Matches `\s*\^\s*` followed by the exponent group; returns the
matched separator text and the exponent text. -/
def powerTail (rest : List Char) : Option (List Char × List Char) :=
  let sp1 := rest.takeWhile Char.isWhitespace
  let r1 := rest.dropWhile Char.isWhitespace
  match r1 with
  | '^' :: r2 =>
    let sp2 := r2.takeWhile Char.isWhitespace
    let r3 := r2.dropWhile Char.isWhitespace
    match (groupCandidates r3).head? with
    | some (exp, _) => some (sp1 ++ '^' :: sp2, exp)
    | _ => none
  | _ => none

/-- A `POWER_REGEX` match starting exactly at the head of `s`:
(full match text, base capture, exponent capture). -/
def matchPowerAt (s : List Char) : Option (List Char × List Char × List Char) :=
  (groupCandidates s).findSome? (fun cand =>
    match powerTail cand.2 with
    | some (sep, exp) => some (cand.1 ++ sep ++ exp, cand.1, exp)
    | none => none)

/-- The leftmost `POWER_REGEX` match (`POWER_REGEX.captures`). -/
def findPowerMatch : List Char → Option (List Char × List Char × List Char)
  | [] => none
  | c :: rest =>
    match matchPowerAt (c :: rest) with
    | some m => some m
    | none => findPowerMatch rest

/-- The `while` loop of `convert_power_operator`. Each replacement removes
exactly one `^` (the matched separator), so the loop performs at most
`count ^` iterations; the fuel makes that bound explicit. -/
def convertPowerLoop : Nat → List Char → List Char
  | 0, r => r
  | fuel + 1, r =>
    match findPowerMatch r with
    | none => r
    | some (full, base, exp) =>
      convertPowerLoop fuel
        (replaceFirstList full ("math::pow(".data ++ base ++ ", ".data ++ exp ++ [')']) r)

/-- `convert_power_operator` from `src/expr/parser.rs`. -/
def convert_power_operator (expr : String) : String :=
  String.mk (convertPowerLoop (expr.data.count '^' + 1) expr.data)

/-- An operand accepted by the parenthesised alternative `\([^)]+\)` of
`POWER_REGEX`: `(` inner `)` with inner nonempty, free of `)` (the negated
character class) and of `^` (so the occurrence is a single power). -/
def parenOperand (b : List Char) : Prop :=
  ∃ inner, b = '(' :: (inner ++ [')']) ∧ inner ≠ [] ∧ ')' ∉ inner ∧ '^' ∉ inner

/-- A base operand of a power occurrence: a word-character run (`\w+`, an
identifier or integer literal), a decimal literal (`\d+\.?\d*`), or a
parenthesised subexpression. -/
def baseOperand (b : List Char) : Prop :=
  (b ≠ [] ∧ ∀ c ∈ b, isWordChar c = true) ∨
    (∃ d1 d2, b = d1 ++ '.' :: d2 ∧ d1 ≠ [] ∧ (∀ c ∈ d1, c.isDigit = true) ∧
      (∀ c ∈ d2, c.isDigit = true)) ∨
    parenOperand b

/-- An exponent operand: a word-character run or a parenthesised
subexpression (a decimal exponent is truncated at the dot by the engine's
leftmost-first alternation, so it is not an exponent operand). -/
def expOperand (e : List Char) : Prop :=
  (e ≠ [] ∧ ∀ c ∈ e, isWordChar c = true) ∨ parenOperand e

/-- `parse_expression` from `src/expr/parser.rs`: extract all JSONPath
matches, sort them by byte length descending (stable), substitute each
(longest first) by its variable name everywhere, then lower `^`. The
returned list is the sorted vector, as in the source. -/
def parse_expression (text : String) : String × List String :=
  let jsonpaths : List String := (findJsonPaths text.data).map String.mk
  let jsonpaths := insertionSort (fun a b => decide (b.utf8ByteSize ≤ a.utf8ByteSize)) jsonpaths
  let result := jsonpaths.foldl (fun r jp => strReplace r jp (jsonpath_to_variable jp)) text
  let result := convert_power_operator result
  (result, jsonpaths)

/-! ## Expression evaluator (`src/expr/evaluator.rs`) -/

/-- `ExpressionError` from `src/error.rs` (the two variants the evaluator
produces). -/
inductive ExpressionError where
  | parse (msg : String)
  | evaluation (msg : String)

/-- `evaluate_expression` from `src/expr/evaluator.rs`. -/
def evaluate_expression (ext : Externals) (expression : String)
    (varMap : List (String × F64)) : Except ExpressionError F64 :=
  let expr := trimWS (trimStartChar '=' expression)
  if expr = "" then .error (.parse "Empty expression")
  else
    let converted := (parse_expression expr).1
    match ext.evalRaw converted varMap with
    | none => .error (.evaluation "evaluation failed")
    | some (.float f) => .ok f
    | some (.int i) => .ok (ext.ops.ofInt i)
    | some .other => .error (.evaluation "Expected numeric result")

/-! ## Value-spec evaluation (`src/bridge/processor.rs`) -/

/-- `MessageProcessor::evaluate_expression_spec`. -/
def evaluate_expression_spec (ext : Externals) (spec : String) (msg_value : Json) : Option Json :=
  let expr := trimWS (trimStartChar '=' spec)
  let jsonpaths := (parse_expression expr).2
  let varMap := jsonpaths.foldl (fun vars path =>
    match extract_jsonpath ext path msg_value with
    | some value =>
      let var_name := jsonpath_to_variable path
      match value.as_f64 ext.ops with
      | some num => insertAssoc vars var_name num
      | none =>
        match value.as_i64 with
        | some num => insertAssoc vars var_name (ext.ops.ofInt num)
        | none => vars
    | none => vars) []
  ((evaluate_expression ext spec varMap).toOption).map (fun f => ext.ops.fromF64 f)

/-- `MessageProcessor::get_value`: expression mode (`=` prefix), JSONPath
mode (contains `$.`), literal mode, in that order; empty spec is absent. -/
def get_value (ext : Externals) (spec : String) (msg : ParsedMessage) : Option Json :=
  if spec = "" then none
  else
    let msg_value := build_message_object msg
    if startsWithChar '=' spec then evaluate_expression_spec ext spec msg_value
    else if strContainsSub spec "$." then extract_jsonpath ext spec msg_value
    else some (.str spec)

/-- `MessageProcessor::convert_type`. -/
def convert_type (ext : Externals) (value : Json) (type_name : String) : Option Json :=
  if type_name = "float" then
    match value.as_f64 ext.ops with
    | some f => some (ext.ops.fromF64 f)
    | none =>
      match value.as_str with
      | some s => (ext.ops.parseF64 s).map ext.ops.fromF64
      | none => value.as_i64.map (fun i => ext.ops.fromF64 (ext.ops.ofInt i))
  else if type_name = "int" then
    match value.as_i64 with
    | some i => some (Json.ofI64 i)
    | none =>
      match value.as_f64 ext.ops with
      | some f => some (Json.ofI64 (ext.ops.toI64 f))
      | none =>
        match value.as_str with
        | some s => (ext.ops.parseI64 s).map Json.ofI64
        | none => none
  else if type_name = "str" ∨ type_name = "string" then
    some (.str (match value with
      | .str s => s
      | other => jsonToString ext.ops other))
  else if type_name = "bool" then
    match value.as_bool with
    | some b => some (.bool b)
    | none =>
      match value.as_str with
      | some s =>
        let ls := lowerStr s
        if ls = "true" ∨ ls = "1" ∨ ls = "yes" ∨ ls = "on" then some (.bool true)
        else if ls = "false" ∨ ls = "0" ∨ ls = "no" ∨ ls = "off" then some (.bool false)
        else none
      | none => value.as_i64.map (fun i => .bool (decide (i ≠ 0)))
  else if type_name = "booltoint" then
    let bool_val : Option Bool :=
      match value.as_bool with
      | some b => some b
      | none =>
        match value.as_str with
        | some s =>
          let ls := lowerStr s
          if ls = "true" ∨ ls = "1" ∨ ls = "yes" ∨ ls = "on" then some true
          else if ls = "false" ∨ ls = "0" ∨ ls = "no" ∨ ls = "off" then some false
          else none
        | none => none
    bool_val.map (fun b => Json.ofI64 (if b then 1 else 0))
  else none

/-- `FieldSpec` from `src/config/types.rs`. -/
inductive FieldSpec where
  | simple (s : String)
  | typed (value : String) (field_type : Option String)

/-- `MessageProcessor::extract_field`. -/
def extract_field (ext : Externals) (spec : FieldSpec) (msg : ParsedMessage) : Option Json :=
  match spec with
  | .simple s => get_value ext s msg
  | .typed value field_type =>
    (get_value ext value msg).bind fun v =>
      match field_type with
      | some type_name => convert_type ext v type_name
      | none => some v

/-! ## Topic matcher (`MessageProcessor::topic_matches`) -/

/-- The `while` loop of `topic_matches` together with its post-loop
checks, as a recursion over the two segment lists. -/
def tmLoop : List String → List String → Bool
  | p :: ps, t :: ts =>
    if p = "#" then true
    else if p = "+" then tmLoop ps ts
    else if p = t then tmLoop ps ts
    else false
  | [], ts => ts.isEmpty
  | p :: _, [] => p == "#"

/-- `MessageProcessor::topic_matches`. -/
def topic_matches (pattern topic : String) : Bool :=
  tmLoop (splitSeg pattern) (splitSeg topic)

/-- One pattern segment against one topic segment, as claim C1 words it:
`+` consumes exactly one segment, a non-wildcard segment must be
byte-for-byte equal. -/
def segMatches (p t : String) : Prop :=
  p = "+" ∨ p = t

instance (p t : String) : Decidable (segMatches p t) := by
  unfold segMatches
  infer_instance

/-- The matching relation exactly as claim C1 states it: either no `#`
and a positional full match, or a trailing `#` at position `k` with the
first `k` pattern segments matching the first `k` topic segments. -/
def claimTopicMatch (ps ts : List String) : Prop :=
  ("#" ∉ ps ∧ ps.length = ts.length ∧ ∀ pr ∈ ps.zip ts, segMatches pr.1 pr.2)
  ∨ (ps.getLast? = some "#" ∧ ps.length - 1 ≤ ts.length ∧
      ∀ pr ∈ ps.dropLast.zip ts, segMatches pr.1 pr.2)

instance (ps ts : List String) : Decidable (claimTopicMatch ps ts) := by
  unfold claimTopicMatch
  infer_instance

/-! ## Cron gate (`MessageProcessor::schedule_matches_at`) -/

/-- Model of a parsed `cron::Schedule`: the finite, whole-second set of
instants the expression designates (the crate enumerates a bounded
range of years). -/
structure CronSchedule where
  instants : List Nat

/-- Least element of a list of instants. -/
def minList : List Nat → Option Nat
  | [] => none
  | x :: xs =>
    match minList xs with
    | none => some x
    | some m => some (min x m)

/-- Model of `Schedule::after(&t).next()`: the earliest designated
instant strictly after `t`. -/
def cronAfter (sch : CronSchedule) (t : Int) : Option Nat :=
  minList (sch.instants.filter (fun s => decide (t < (s : Int))))

/-- Rust `str::split(pred)`: like the char version, with a predicate. -/
def splitPredList (p : Char → Bool) : List Char → List (List Char)
  | [] => [[]]
  | c :: rest =>
    let r := splitPredList p rest
    if p c then [] :: r
    else
      match r with
      | [] => [[c]]
      | h :: t => (c :: h) :: t

/-- Rust `str::split_whitespace`: whitespace-separated tokens (empty
pieces dropped). -/
def splitWhitespaceToks (s : String) : List String :=
  ((splitPredList Char.isWhitespace s.data).map String.mk).filter (fun t => !(t == ""))

/-- The 5-field → 6-field normalisation inside `schedule_matches_at`. -/
def normalizeSchedule (schedule : String) : String :=
  if (splitWhitespaceToks schedule).length = 5 then "0 " ++ schedule else schedule

/-- `MessageProcessor::schedule_matches_at`, over a model `cronParse` of
`cron::Schedule::from_str` (`none` on a syntactically invalid
expression); `time` is the wall-clock instant in whole seconds since
the epoch (`with_second(0)`/`with_nanosecond(0)` truncation becomes
truncation to the minute). -/
def schedule_matches_at (cronParse : String → Option CronSchedule)
    (schedule : String) (time : Nat) : Bool :=
  let normalized := normalizeSchedule schedule
  match cronParse normalized with
  | none => false
  | some sch =>
    let minuteStart := 60 * (time / 60)
    let checkFrom : Int := (minuteStart : Int) - 1
    match cronAfter sch checkFrom with
    | none => false
    | some next => decide (60 * (next / 60) = minuteStart)

/-! ## Dispatch loop (`src/main.rs`) -/

/-- Externally observable calls made while processing one point
specification. -/
inductive Event where
  | writeAttempt (measurement : String)
  | forwardJson (content : Json)

/-- `PointConfig` from `src/config/types.rs` (maps as association lists). -/
structure PointConfig where
  measurement : String
  topic : String
  bucket : Option String
  schedule : Option String
  fields : List (String × FieldSpec)
  tags : List (String × String)
  httpcontent : List (String × String)

/-- `HttpContentBuilder::add_from_json` from `src/bridge/http.rs`. -/
def add_from_json (ops : StdOps) (content : List (String × String)) (key : String)
    (value : Json) : List (String × String) :=
  let string_value :=
    match value with
    | .str s => s
    | .num (.posInt u) => toString u
    | .num (.negInt i) => toString i
    | .num (.float f) => ops.jsonDisp f
    | .bool b => if b then "true" else "false"
    | .null => ""
    | other => jsonToString ops other
  insertAssoc content key string_value

/-- The two sinks the dispatch loop calls: `InfluxDBWriter::write_point`
(`some err` models an `Err`) and, when an HTTP forwarder is configured,
`HttpForwarder::forward_json` (its result is logged and swallowed). -/
structure Sinks where
  writer : Point → Option String → Option String
  forwarder : Option (Json → Option String)

/-- `process_point` from `src/main.rs`: returns the trace of sink calls
and the function's `Result`. `nowNanos` models the `SystemTime::now()`
nanosecond timestamp taken in the body. -/
def process_point (ext : Externals) (sinks : Sinks) (nowNanos : Int)
    (point_config : PointConfig) (parsed : ParsedMessage) :
    List Event × Except String Unit :=
  match get_value ext point_config.measurement parsed with
  | none => ([], .ok ())
  | some mval =>
    let measurement :=
      match mval with
      | .str s => s
      | v => trimChar '"' (jsonToString ext.ops v)
    let tags := point_config.tags.foldl (fun acc kv =>
      match get_value ext kv.2 parsed with
      | some value =>
        let tag_value :=
          match value with
          | .str s => s
          | v => trimChar '"' (jsonToString ext.ops v)
        if tag_value ≠ "" then insertAssoc acc kv.1 tag_value else acc
      | none => acc) []
    let fields := point_config.fields.foldl (fun acc kv =>
      match extract_field ext kv.2 parsed with
      | some value =>
        match FieldValue.from_json ext.ops value with
        | some fv => insertAssoc acc kv.1 fv
        | none => acc
      | none => acc) []
    if fields.isEmpty then ([], .ok ())
    else
      let point : Point :=
        { measurement := measurement, tags := tags, fields := fields,
          timestamp := some nowNanos }
      match sinks.writer point point_config.bucket with
      | some err => ([.writeAttempt measurement], .error err)
      | none =>
        match sinks.forwarder with
        | some forward =>
          if !point_config.httpcontent.isEmpty then
            let content := point_config.httpcontent.foldl (fun acc kv =>
              match get_value ext kv.2 parsed with
              | some value => add_from_json ext.ops acc kv.1 value
              | none => acc) []
            if !content.isEmpty then
              let json_content := Json.obj (content.map (fun kv => (kv.1, Json.str kv.2)))
              let res := forward json_content
              ([.writeAttempt measurement, .forwardJson json_content], .ok ())
            else ([.writeAttempt measurement], .ok ())
          else ([.writeAttempt measurement], .ok ())
        | none => ([.writeAttempt measurement], .ok ())

/-- The events one point specification contributes inside the
`process_message` loop: skipped when the topic pattern does not match or
a configured schedule gates it off, otherwise the `process_point` trace
(its error is logged and does not leave the loop iteration). -/
def perConfigEvents (ext : Externals) (sinks : Sinks) (nowNanos : Int)
    (gate : String → Bool) (topic : String) (parsed : ParsedMessage)
    (point_config : PointConfig) : List Event :=
  if !topic_matches point_config.topic topic then []
  else
    match point_config.schedule with
    | some schedule =>
      if !gate schedule then []
      else (process_point ext sinks nowNanos point_config parsed).1
    | none => (process_point ext sinks nowNanos point_config parsed).1

/-- `process_message` from `src/main.rs`: parse once, then iterate every
point specification in configuration order, accumulating the sink
calls; `gate` models `schedule_matches` at the current wall clock. -/
def process_message (ext : Externals) (sinks : Sinks) (nowNanos : Int)
    (gate : String → Bool) (points : List PointConfig) (topic : String)
    (payload : List Nat) (qos : Nat) (base64cfg : Option Base64DecodeConfig) : List Event :=
  let parsed := parse_message ext base64cfg topic payload qos
  points.foldl (fun events point_config =>
    events ++ perConfigEvents ext sinks nowNanos gate topic parsed point_config) []

/-- A small concrete parsed message for closed statements. -/
def msg0 : ParsedMessage where
  topic := ["t"]
  payload := Json.null
  timestamp := none
  qos := 0
  base64decoded := none

/-- A concrete instance of the externals record for closed statements. -/
def ext0 : Externals where
  ops := stdOps0
  jsonParse _ := none
  utf8Lossy bytes := String.mk (bytes.map Char.ofNat)
  query _ _ := some []
  b64decode _ := none
  evalRaw _ _ := none

/-- Concrete sinks whose writer always fails, for closed statements. -/
def sinksFail : Sinks where
  writer _ _ := some "boom"
  forwarder := some (fun _ => none)

/-- A concrete point specification for closed statements. -/
def cfg1 : PointConfig where
  measurement := "m"
  topic := "t"
  bucket := none
  schedule := none
  fields := [("v", FieldSpec.simple "1")]
  tags := []
  httpcontent := [("k", "1")]

/-! ## Theorems -/

theorem claimTopicMatch_nil (ts : List String) : claimTopicMatch [] ts ↔ ts = [] := by
  constructor
  · rintro (⟨_, h, _⟩ | ⟨h, _, _⟩)
    · exact List.length_eq_zero.mp h.symm
    · simp at h
  · rintro rfl
    exact Or.inl ⟨by simp, rfl, by simp⟩

theorem claimTopicMatch_hash (ts : List String) : claimTopicMatch ["#"] ts :=
  Or.inr ⟨by simp, by simp, by simp⟩

theorem claimTopicMatch_cons {p t : String} {ps' ts' : List String} (hph : p ≠ "#") :
    claimTopicMatch (p :: ps') (t :: ts') ↔ segMatches p t ∧ claimTopicMatch ps' ts' := by
  unfold claimTopicMatch
  constructor
  · rintro (⟨h1, h2, h3⟩ | ⟨h1, h2, h3⟩)
    · refine ⟨h3 (p, t) (by simp), Or.inl ⟨fun hc => h1 (List.mem_cons_of_mem _ hc),
        by simpa using h2, fun pr hpr => h3 pr (by simp [hpr])⟩⟩
    · cases ps' with
      | nil =>
        simp only [List.getLast?_singleton, Option.some.injEq] at h1
        exact absurd h1 hph
      | cons q qs =>
        rw [List.dropLast_cons₂] at h3
        simp only [List.zip_cons_cons, List.mem_cons] at h3
        refine ⟨h3 (p, t) (Or.inl rfl), Or.inr ⟨by simpa using h1, ?_,
          fun pr hpr => h3 pr (Or.inr hpr)⟩⟩
        simp only [List.length_cons] at h2 ⊢
        omega
  · rintro ⟨hseg, (⟨h1, h2, h3⟩ | ⟨h1, h2, h3⟩)⟩
    · refine Or.inl ⟨?_, by simp [h2], ?_⟩
      · rw [List.mem_cons]
        push_neg
        exact ⟨fun hc => hph hc.symm, h1⟩
      · intro pr hpr
        rw [List.zip_cons_cons, List.mem_cons] at hpr
        rcases hpr with rfl | hpr
        · exact hseg
        · exact h3 pr hpr
    · cases ps' with
      | nil => simp at h1
      | cons q qs =>
        refine Or.inr ⟨by simpa using h1, ?_, ?_⟩
        · simp only [List.length_cons] at h2 ⊢
          omega
        · intro pr hpr
          rw [List.dropLast_cons₂, List.zip_cons_cons, List.mem_cons] at hpr
          rcases hpr with rfl | hpr
          · exact hseg
          · exact h3 pr hpr

theorem claimTopicMatch_cons_nil {p : String} {ps' : List String} (hph : p ≠ "#") :
    ¬ claimTopicMatch (p :: ps') [] := by
  rintro (⟨_, h2, _⟩ | ⟨h1, h2, _⟩)
  · simp at h2
  · cases ps' with
    | nil =>
      simp only [List.getLast?_singleton, Option.some.injEq] at h1
      exact hph h1
    | cons q qs => simp at h2

theorem tmLoop_iff (ps : List String) :
    ∀ ts, "#" ∉ ps.dropLast → (tmLoop ps ts = true ↔ claimTopicMatch ps ts) := by
  induction ps with
  | nil =>
    intro ts _
    rw [claimTopicMatch_nil]
    cases ts with
    | nil => simp [tmLoop]
    | cons t ts' => simp [tmLoop]
  | cons p ps' ih =>
    intro ts hp
    by_cases hph : p = "#"
    · subst hph
      have hps' : ps' = [] := by
        cases ps' with
        | nil => rfl
        | cons q qs =>
          exfalso
          apply hp
          rw [List.dropLast_cons₂]
          exact List.mem_cons_self _ _
      subst hps'
      cases ts with
      | nil =>
        constructor
        · intro _
          exact claimTopicMatch_hash []
        · intro _
          rfl
      | cons t ts' =>
        constructor
        · intro _
          exact claimTopicMatch_hash (t :: ts')
        · intro _
          show (if "#" = "#" then true else _) = true
          rw [if_pos rfl]
    · have hp' : "#" ∉ ps'.dropLast := by
        intro hcontr
        apply hp
        cases ps' with
        | nil => simp at hcontr
        | cons q qs =>
          rw [List.dropLast_cons₂]
          exact List.mem_cons_of_mem _ hcontr
      cases ts with
      | nil =>
        constructor
        · intro h
          simp only [tmLoop, beq_iff_eq] at h
          exact absurd h hph
        · intro h
          exact absurd h (claimTopicMatch_cons_nil hph)
      | cons t ts' =>
        rw [claimTopicMatch_cons hph]
        have e : tmLoop (p :: ps') (t :: ts') =
            (if p = "#" then true
             else if p = "+" then tmLoop ps' ts'
             else if p = t then tmLoop ps' ts'
             else false) := rfl
        rw [e, if_neg hph]
        by_cases hseg : segMatches p t
        · have e2 : (if p = "+" then tmLoop ps' ts'
              else if p = t then tmLoop ps' ts' else false) = tmLoop ps' ts' := by
            rcases hseg with h | h
            · rw [if_pos h]
            · by_cases hplus : p = "+"
              · rw [if_pos hplus]
              · rw [if_neg hplus, if_pos h]
          rw [e2, ih ts' hp']
          simp [hseg]
        · have h1 : p ≠ "+" := fun hc => hseg (Or.inl hc)
          have h2 : p ≠ t := fun hc => hseg (Or.inr hc)
          rw [if_neg h1, if_neg h2]
          simp [hseg]

/-- C1 (amended): for patterns in which `#` occurs only as the final
segment, `topic_matches` is true iff either the pattern has no `#` and
matches the topic positionally (`+` consuming exactly one segment,
non-wildcards byte-for-byte equal), or the pattern ends in `#` at
position `k` and the topic's first `k` segments match the first `k`
pattern segments (so `a/#` matches `a`). -/
theorem c1_topic_matches_spec (pattern topic : String)
    (hp : "#" ∉ (splitSeg pattern).dropLast) :
    topic_matches pattern topic = true ↔
      claimTopicMatch (splitSeg pattern) (splitSeg topic) :=
  tmLoop_iff (splitSeg pattern) (splitSeg topic) hp

/-- C1 counterexample to the unrestricted claim: for the (MQTT-invalid)
pattern `a/#/b`, which has `#` in the middle, the code returns `true` on
topic `a/x` although the claimed characterisation (no `#`, or only a
trailing `#`) is false there. -/
theorem c1_counterexample :
    topic_matches "a/#/b" "a/x" = true ∧
      ¬ claimTopicMatch (splitSeg "a/#/b") (splitSeg "a/x") := by
  constructor
  · rfl
  · decide

/-- C1 witness: the amended theorem applied at pattern `a/#`, topic `a`
(the claim's own boundary example: `#` consumes zero segments). -/
theorem c1_witness :
    ("#" ∉ (splitSeg "a/#").dropLast ∧
      topic_matches "a/#" "a" = true ∧ claimTopicMatch (splitSeg "a/#") (splitSeg "a")) :=
  ⟨by decide, rfl, (c1_topic_matches_spec "a/#" "a" (by decide)).mp rfl⟩

theorem replaceListAux_congr (pat repl : List Char) :
    ∀ f1 f2 s, s.length ≤ f1 → s.length ≤ f2 →
      replaceListAux pat repl f1 s = replaceListAux pat repl f2 s := by
  intro f1
  induction f1 with
  | zero =>
    intro f2 s h1 _
    have hs : s = [] := List.length_eq_zero.mp (Nat.le_zero.mp h1)
    subst hs
    cases f2 <;> rfl
  | succ f1' ih =>
    intro f2 s h1 h2
    cases s with
    | nil => cases f2 <;> rfl
    | cons c rest =>
      cases f2 with
      | zero => simp at h2
      | succ f2' =>
        simp only [replaceListAux]
        by_cases hc : pat ≠ [] ∧ pat.isPrefixOf (c :: rest)
        · rw [if_pos hc, if_pos hc]
          congr 1
          have hp : 0 < pat.length := List.length_pos.mpr hc.1
          apply ih
          · simp only [List.length_drop, List.length_cons]
            simp only [List.length_cons] at h1
            omega
          · simp only [List.length_drop, List.length_cons]
            simp only [List.length_cons] at h2
            omega
        · rw [if_neg hc, if_neg hc]
          congr 1
          apply ih
          · simp only [List.length_cons] at h1
            omega
          · simp only [List.length_cons] at h2
            omega

theorem replaceList_cons_pos {pat : List Char} (repl : List Char) {c : Char} {rest : List Char}
    (h1 : pat ≠ []) (h2 : pat.isPrefixOf (c :: rest)) :
    replaceList pat repl (c :: rest) =
      repl ++ replaceList pat repl ((c :: rest).drop pat.length) := by
  show replaceListAux pat repl (rest.length + 1) (c :: rest) = _
  simp only [replaceListAux, if_pos (And.intro h1 h2)]
  congr 1
  apply replaceListAux_congr
  · have hp : 0 < pat.length := List.length_pos.mpr h1
    simp only [List.length_drop, List.length_cons]
    omega
  · exact Nat.le_refl _

theorem replaceList_cons_neg {pat : List Char} (repl : List Char) {c : Char} {rest : List Char}
    (h : ¬ (pat ≠ [] ∧ pat.isPrefixOf (c :: rest))) :
    replaceList pat repl (c :: rest) = c :: replaceList pat repl rest := by
  show replaceListAux pat repl (rest.length + 1) (c :: rest) = _
  simp only [replaceListAux, if_neg h]
  rfl

theorem replaceList_append_pat {pat : List Char} (repl t : List Char) (hp : pat ≠ []) :
    replaceList pat repl (pat ++ t) = repl ++ replaceList pat repl t := by
  cases pat with
  | nil => exact absurd rfl hp
  | cons p ps =>
    have hpre : (p :: ps).isPrefixOf (p :: (ps ++ t)) := by
      rw [List.isPrefixOf_iff_prefix]
      exact List.prefix_append _ _
    have step := replaceList_cons_pos repl (List.cons_ne_nil p ps) hpre
    have hdrop : (p :: (ps ++ t)).drop (p :: ps).length = t := List.drop_left (p :: ps) t
    rw [hdrop] at step
    exact step

theorem replaceList_not_occurs {pat : List Char} (repl : List Char) {s : List Char}
    (h : occursIn pat s = false) (hp : pat ≠ []) :
    replaceList pat repl s = s := by
  induction s with
  | nil => rfl
  | cons c rest ih =>
    rw [occursIn, Bool.or_eq_false_iff] at h
    rw [replaceList_cons_neg repl ?_, ih h.2]
    intro hc
    have h2 := hc.2
    rw [h.1] at h2
    exact absurd h2 (by simp)

theorem replaceList_single_map (c r : Char) (s : List Char) :
    replaceList [c] [r] s = s.map (fun x => if x = c then r else x) := by
  induction s with
  | nil => rfl
  | cons x rest ih =>
    by_cases hx : x = c
    · subst hx
      rw [replaceList_cons_pos [r] (by simp) (by simp [List.isPrefixOf])]
      simp [ih]
    · rw [replaceList_cons_neg]
      · simp [hx, ih]
      · intro hc
        have h2 := hc.2
        simp only [List.isPrefixOf, Bool.and_eq_true, beq_iff_eq] at h2
        exact hx h2.1.symm

theorem occursIn_single_false {c : Char} {s : List Char} (h : c ∉ s) :
    occursIn [c] s = false := by
  induction s with
  | nil => simp [occursIn]
  | cons x rest ih =>
    have hx : c ≠ x := fun hc => h (hc ▸ List.mem_cons_self _ _)
    rw [occursIn, Bool.or_eq_false_iff]
    refine ⟨?_, ih (fun hc => h (List.mem_cons_of_mem _ hc))⟩
    simp [List.isPrefixOf, hx]

theorem mapDot_pullback (y c : Char) (hc : c ≠ '_')
    (hy : (if y = '.' then '_' else y) = c) : y = c := by
  by_cases hd : y = '.'
  · rw [hd] at hy
    simp at hy
    exact absurd hy.symm hc
  · simpa [hd] using hy

theorem occursIn_json5_map_false {t : List Char}
    (h3 : occursIn ['J', 'S', 'O', 'N'] t = false) :
    occursIn "JSON_".data (t.map (fun x => if x = '.' then '_' else x)) = false := by
  induction t with
  | nil => simp [occursIn]
  | cons x rest ih =>
    rw [occursIn, Bool.or_eq_false_iff] at h3
    rw [List.map_cons, occursIn, Bool.or_eq_false_iff]
    refine ⟨?_, ih h3.2⟩
    by_contra hpre
    rw [Bool.not_eq_false] at hpre
    rw [show ("JSON_".data : List Char) = ['J', 'S', 'O', 'N', '_'] from rfl] at hpre
    simp only [List.isPrefixOf, Bool.and_eq_true, beq_iff_eq] at hpre
    obtain ⟨hJ, hpre⟩ := hpre
    cases rest with
    | nil => simp [List.isPrefixOf] at hpre
    | cons x2 r2 =>
      rw [List.map_cons] at hpre
      simp only [List.isPrefixOf, Bool.and_eq_true, beq_iff_eq] at hpre
      obtain ⟨hS, hpre⟩ := hpre
      cases r2 with
      | nil => simp [List.isPrefixOf] at hpre
      | cons x3 r3 =>
        rw [List.map_cons] at hpre
        simp only [List.isPrefixOf, Bool.and_eq_true, beq_iff_eq] at hpre
        obtain ⟨hO, hpre⟩ := hpre
        cases r3 with
        | nil => simp [List.isPrefixOf] at hpre
        | cons x4 r4 =>
          rw [List.map_cons] at hpre
          simp only [List.isPrefixOf, Bool.and_eq_true, beq_iff_eq] at hpre
          obtain ⟨hN, _⟩ := hpre
          have hx : x = 'J' := mapDot_pullback x 'J' (by decide) hJ.symm
          have hx2 : x2 = 'S' := mapDot_pullback x2 'S' (by decide) hS.symm
          have hx3 : x3 = 'O' := mapDot_pullback x3 'O' (by decide) hO.symm
          have hx4 : x4 = 'N' := mapDot_pullback x4 'N' (by decide) hN.symm
          subst hx hx2 hx3 hx4
          simp [List.isPrefixOf] at h3

/-- C5 (amended): for a path consisting of `$` followed by a remainder
with no `$`, no `_`, and no occurrence of `JSON`, round-tripping through
variable naming preserves the path:
`variable_to_jsonpath (jsonpath_to_variable p) = p`. (Key names with
underscores, or containing `JSON` before a dot, do not round-trip.) -/
theorem c5_variable_roundtrip (t : List Char) (h1 : '$' ∉ t) (h2 : '_' ∉ t)
    (h3 : occursIn ['J', 'S', 'O', 'N'] t = false) :
    variable_to_jsonpath (jsonpath_to_variable (String.mk ('$' :: t))) =
      String.mk ('$' :: t) := by
  have e1 : replaceList ['$'] "JSON_".data ('$' :: t) = "JSON_".data ++ t := by
    rw [show ('$' :: t) = ['$'] ++ t from rfl,
      replaceList_append_pat "JSON_".data t (by simp),
      replaceList_not_occurs _ (occursIn_single_false h1) (by simp)]
  have e2 : replaceList ['.'] ['_'] ("JSON_".data ++ t) =
      "JSON_".data ++ t.map (fun x => if x = '.' then '_' else x) := by
    rw [replaceList_single_map, List.map_append]
    rfl
  have e3 : replaceList "JSON_".data ['$']
      ("JSON_".data ++ t.map (fun x => if x = '.' then '_' else x)) =
      '$' :: t.map (fun x => if x = '.' then '_' else x) := by
    rw [replaceList_append_pat _ _ (by simp),
      replaceList_not_occurs _ (occursIn_json5_map_false h3) (by simp)]
    rfl
  have e4 : replaceList ['_'] ['.'] ('$' :: t.map (fun x => if x = '.' then '_' else x)) =
      '$' :: t := by
    rw [replaceList_single_map, List.map_cons, List.map_map]
    congr 1
    have hcong : ∀ x ∈ t,
        ((fun x => if x = '_' then '.' else x) ∘ (fun x => if x = '.' then '_' else x)) x
          = id x := by
      intro x hx
      by_cases hdot : x = '.'
      · simp [hdot]
      · have hund : x ≠ '_' := fun hc => h2 (hc ▸ hx)
        simp [Function.comp, hdot, hund]
    rw [List.map_congr_left hcong, List.map_id]
  show String.mk (replaceList "_".data ".".data
      (String.mk (replaceList "JSON_".data "$".data
        (String.mk (replaceList ".".data "_".data
          (String.mk (replaceList "$".data "JSON_".data ('$' :: t))).data)).data)).data) = _
  rw [show ("$".data : List Char) = ['$'] from rfl, show (".".data : List Char) = ['.'] from rfl,
    show ("_".data : List Char) = ['_'] from rfl]
  rw [show ∀ l : List Char, (String.mk l).data = l from fun _ => rfl]
  rw [e1]
  rw [show ∀ l : List Char, (String.mk l).data = l from fun _ => rfl]
  rw [e2]
  rw [show ∀ l : List Char, (String.mk l).data = l from fun _ => rfl]
  rw [e3, e4]

/-- C5 counterexample to the unrestricted claim: the index-free path
`$.a_b` (an underscore in a key name) does not round-trip: it comes back
as `$.a.b`. -/
theorem c5_counterexample :
    variable_to_jsonpath (jsonpath_to_variable "$.a_b") = "$.a.b" ∧
      variable_to_jsonpath (jsonpath_to_variable "$.a_b") ≠ "$.a_b" := by
  constructor
  · rfl
  · decide

/-- C5 witness: the amended theorem applied to `$.payload.value`. -/
theorem c5_witness :
    ('$' ∉ ".payload.value".data ∧ '_' ∉ ".payload.value".data ∧
        occursIn ['J', 'S', 'O', 'N'] ".payload.value".data = false) ∧
      variable_to_jsonpath (jsonpath_to_variable (String.mk ('$' :: ".payload.value".data))) =
        String.mk ('$' :: ".payload.value".data) :=
  ⟨by decide, c5_variable_roundtrip ".payload.value".data (by decide) (by decide) (by decide)⟩

theorem listCharLe_cons (a b : Char) (as bs : List Char) :
    listCharLe (a :: as) (b :: bs) =
      if a.toNat < b.toNat then true
      else if b.toNat < a.toNat then false
      else listCharLe as bs := rfl

theorem listCharLe_total (as bs : List Char) : listCharLe as bs || listCharLe bs as := by
  induction as generalizing bs with
  | nil => simp [listCharLe]
  | cons a as' ih =>
    cases bs with
    | nil => simp [listCharLe]
    | cons b bs' =>
      rcases Nat.lt_trichotomy a.toNat b.toNat with h | h | h
      · have e : listCharLe (a :: as') (b :: bs') = true := by
          rw [listCharLe_cons, if_pos h]
        simp [e]
      · have e1 : listCharLe (a :: as') (b :: bs') = listCharLe as' bs' := by
          rw [listCharLe_cons, if_neg (by omega), if_neg (by omega)]
        have e2 : listCharLe (b :: bs') (a :: as') = listCharLe bs' as' := by
          rw [listCharLe_cons, if_neg (by omega), if_neg (by omega)]
        rw [e1, e2]
        exact ih bs'
      · have e : listCharLe (b :: bs') (a :: as') = true := by
          rw [listCharLe_cons, if_pos h]
        simp [e]

theorem listCharLe_trans (as : List Char) :
    ∀ bs cs, listCharLe as bs → listCharLe bs cs → listCharLe as cs := by
  induction as with
  | nil =>
    intro bs cs _ _
    simp [listCharLe]
  | cons a as' ih =>
    intro bs cs h1 h2
    cases bs with
    | nil => simp [listCharLe] at h1
    | cons b bs' =>
      cases cs with
      | nil => simp [listCharLe] at h2
      | cons c cs' =>
        rw [listCharLe_cons] at h1 h2 ⊢
        split_ifs at h1 h2 ⊢ <;>
          first
            | rfl
            | omega
            | exact ih bs' cs' h1 h2
            | simp at h1
            | simp at h2

theorem mem_insertSorted {α : Type} (le : α → α → Bool) (x a : α) (l : List α) :
    a ∈ insertSorted le x l ↔ a = x ∨ a ∈ l := by
  induction l with
  | nil => simp [insertSorted]
  | cons y ys ih =>
    rw [insertSorted]
    split_ifs with h
    · simp
    · simp only [List.mem_cons, ih]
      tauto

theorem mem_insertionSort {α : Type} (le : α → α → Bool) (a : α) (l : List α) :
    a ∈ insertionSort le l ↔ a ∈ l := by
  induction l with
  | nil => simp [insertionSort]
  | cons x xs ih =>
    rw [insertionSort, mem_insertSorted]
    simp [ih]

theorem pairwise_insertSorted {α : Type} (le : α → α → Bool)
    (trans : ∀ a b c, le a b → le b c → le a c)
    (total : ∀ a b, le a b || le b a) (x : α) (l : List α)
    (h : l.Pairwise (fun a b => le a b)) :
    (insertSorted le x l).Pairwise (fun a b => le a b) := by
  induction l with
  | nil => simp [insertSorted]
  | cons y ys ih =>
    rw [insertSorted]
    rw [List.pairwise_cons] at h
    split_ifs with hxy
    · rw [List.pairwise_cons]
      refine ⟨?_, List.pairwise_cons.mpr h⟩
      intro z hz
      rcases List.mem_cons.mp hz with rfl | hz
      · exact hxy
      · exact trans x y z hxy (h.1 z hz)
    · have hyx : le y x := by
        have ht := total x y
        rw [Bool.or_eq_true] at ht
        rcases ht with ht | ht
        · exact absurd ht hxy
        · exact ht
      rw [List.pairwise_cons]
      refine ⟨?_, ih h.2⟩
      intro z hz
      rcases (mem_insertSorted le x z ys).mp hz with rfl | hz
      · exact hyx
      · exact h.1 z hz

theorem pairwise_insertionSort {α : Type} (le : α → α → Bool)
    (trans : ∀ a b c, le a b → le b c → le a c)
    (total : ∀ a b, le a b || le b a) (l : List α) :
    (insertionSort le l).Pairwise (fun a b => le a b) := by
  induction l with
  | nil => simp [insertionSort]
  | cons x xs ih =>
    rw [insertionSort]
    exact pairwise_insertSorted le trans total x _ ih

theorem pairwise_key_sorted {α : Type} (l : List (String × α)) :
    (sortByKey l).Pairwise (fun a b => strLe a.1 b.1) := by
  unfold sortByKey
  exact pairwise_insertionSort _
    (fun a b c hab hbc => listCharLe_trans a.1.data b.1.data c.1.data hab hbc)
    (fun a b => listCharLe_total a.1.data b.1.data) l

/-- C2: in the rendered line, the tag segment is sorted ascending (byte
lexicographic) by tag key with every empty-valued tag omitted, and the
field segment is sorted ascending by field key. `renderedTags` and
`renderedFields` are the exact pair sequences `to_line_protocol`
renders. -/
theorem c2_line_protocol_sorted (p : Point) :
    (renderedTags p.tags).Pairwise (fun a b => strLe a.1 b.1) ∧
      (∀ kv ∈ renderedTags p.tags, kv.2 ≠ "") ∧
      (∀ k, (k, "") ∉ renderedTags p.tags) ∧
      (renderedFields p.fields).Pairwise (fun a b => strLe a.1 b.1) := by
  refine ⟨?_, ?_, ?_, pairwise_key_sorted p.fields⟩
  · exact (pairwise_key_sorted p.tags).filter _
  · intro kv hkv
    have hp := List.of_mem_filter hkv
    simpa using hp
  · intro k hk
    have hp := List.of_mem_filter hk
    simp at hp

/-- C2 witness: the theorem applied to a concrete point whose tag map
holds an empty-valued tag and out-of-order keys. -/
theorem c2_witness :
    (renderedTags [("b", "x"), ("a", "")]).Pairwise (fun a b => strLe a.1 b.1) ∧
      ("b", "x").2 ≠ "" ∧ ("a", "") ∉ renderedTags [("b", "x"), ("a", "")] :=
  have h := c2_line_protocol_sorted
    { measurement := "m", tags := [("b", "x"), ("a", "")],
      fields := [("v", FieldValue.int 1)], timestamp := none }
  ⟨h.1, h.2.1 ("b", "x") (by decide), h.2.2.1 "a"⟩

/-- C4: a float field whose value has zero fractional part is rendered
with a trailing `.0` (hence its token contains a decimal point), and an
int field is rendered with the `i` suffix; the tokens appear in the
line's field segment (`fieldTokens`). -/
theorem c4_field_rendering (p : Point) (k : String) (f : F64) (i : Int) :
    ((k, FieldValue.float f) ∈ p.fields → f.fractZero = true →
      fieldValueStr (.float f) = f.disp ++ ".0" ∧
        '.' ∈ (fieldValueStr (.float f)).data ∧
        (escape_field_key k ++ "=" ++ fieldValueStr (.float f)) ∈ fieldTokens p.fields) ∧
    ((k, FieldValue.int i) ∈ p.fields →
      fieldValueStr (.int i) = toString i ++ "i" ∧
        (escape_field_key k ++ "=" ++ fieldValueStr (.int i)) ∈ fieldTokens p.fields) := by
  constructor
  · intro hmem hfz
    refine ⟨by simp [fieldValueStr, hfz], ?_, ?_⟩
    · simp only [fieldValueStr, hfz, if_pos]
      rw [String.data_append]
      exact List.mem_append_right _ (by decide)
    · unfold fieldTokens renderedFields
      exact List.mem_map.mpr ⟨(k, .float f),
        by unfold sortByKey; exact (mem_insertionSort _ _ _).mpr hmem, rfl⟩
  · intro hmem
    refine ⟨rfl, ?_⟩
    unfold fieldTokens renderedFields
    exact List.mem_map.mpr ⟨(k, .int i),
      by unfold sortByKey; exact (mem_insertionSort _ _ _).mpr hmem, rfl⟩

/-- C4 witness: the theorem applied to a concrete point holding the
whole float `100.0` (std `Display` prints `100`) and the int `42`. -/
theorem c4_witness :
    (fieldValueStr (FieldValue.float { disp := "100", fractZero := true }) = "100" ++ ".0" ∧
      '.' ∈ (fieldValueStr (FieldValue.float { disp := "100", fractZero := true })).data ∧
      (escape_field_key "v" ++ "=" ++
          fieldValueStr (FieldValue.float { disp := "100", fractZero := true }))
        ∈ fieldTokens [("n", FieldValue.int 42),
            ("v", FieldValue.float { disp := "100", fractZero := true })]) ∧
    (fieldValueStr (FieldValue.int 42) = toString (42 : Int) ++ "i" ∧
      (escape_field_key "n" ++ "=" ++ fieldValueStr (FieldValue.int 42))
        ∈ fieldTokens [("n", FieldValue.int 42),
            ("v", FieldValue.float { disp := "100", fractZero := true })]) :=
  have h := c4_field_rendering
    { measurement := "count", tags := [],
      fields := [("n", FieldValue.int 42),
        ("v", FieldValue.float { disp := "100", fractZero := true })],
      timestamp := none } "v" { disp := "100", fractZero := true } 42
  have h2 := c4_field_rendering
    { measurement := "count", tags := [],
      fields := [("n", FieldValue.int 42),
        ("v", FieldValue.float { disp := "100", fractZero := true })],
      timestamp := none } "n" { disp := "100", fractZero := true } 42
  ⟨h.1 (by decide) rfl, h2.2 (by decide)⟩

/-- C3: `get_value` dispatch. An empty spec is absent in all modes; a
spec starting with `=` is evaluated as an arithmetic expression over the
composed message object; otherwise a spec containing `$.` is evaluated
as a JSONPath query against the composed message object, yielding the
first matching value and absent when none match; otherwise the spec
itself is returned as a JSON string. -/
theorem c3_get_value_modes (ext : Externals) (msg : ParsedMessage) (spec : String) :
    (get_value ext "" msg = none) ∧
    (spec ≠ "" → startsWithChar '=' spec = true →
      get_value ext spec msg = evaluate_expression_spec ext spec (build_message_object msg)) ∧
    (spec ≠ "" → startsWithChar '=' spec = false → strContainsSub spec "$." = true →
      get_value ext spec msg = (ext.query spec (build_message_object msg)).bind List.head?) ∧
    (spec ≠ "" → startsWithChar '=' spec = false → strContainsSub spec "$." = true →
      ∀ v vs, ext.query spec (build_message_object msg) = some (v :: vs) →
        get_value ext spec msg = some v) ∧
    (spec ≠ "" → startsWithChar '=' spec = false → strContainsSub spec "$." = true →
      (ext.query spec (build_message_object msg) = some [] ∨
        ext.query spec (build_message_object msg) = none) →
      get_value ext spec msg = none) ∧
    (spec ≠ "" → startsWithChar '=' spec = false → strContainsSub spec "$." = false →
      get_value ext spec msg = some (Json.str spec)) := by
  refine ⟨rfl, ?_, ?_, ?_, ?_, ?_⟩
  · intro h1 h2
    simp [get_value, h1, h2]
  · intro h1 h2 h3
    simp [get_value, extract_jsonpath, h1, h2, h3]
  · intro h1 h2 h3 v vs hq
    simp [get_value, extract_jsonpath, h1, h2, h3, hq]
  · intro h1 h2 h3 hq
    rcases hq with hq | hq <;> simp [get_value, extract_jsonpath, h1, h2, h3, hq]
  · intro h1 h2 h3
    simp [get_value, h1, h2, h3]

/-- C3 witness: the theorem applied with the concrete externals `ext0`
(whose query yields no matches), a concrete message, and one spec per
mode. -/
theorem c3_witness :
    (get_value ext0 "" msg0 = none) ∧
    (get_value ext0 "=1 + 2" msg0 =
      evaluate_expression_spec ext0 "=1 + 2" (build_message_object msg0)) ∧
    (get_value ext0 "$.payload" msg0 = none) ∧
    (get_value ext0 "hello" msg0 = some (Json.str "hello")) :=
  have h1 := c3_get_value_modes ext0 msg0 "=1 + 2"
  have h2 := c3_get_value_modes ext0 msg0 "$.payload"
  have h3 := c3_get_value_modes ext0 msg0 "hello"
  ⟨h1.1, h1.2.1 (by decide) (by decide),
    h2.2.2.2.2.1 (by decide) (by decide) (by decide) (Or.inl rfl),
    h3.2.2.2.2.2 (by decide) (by decide) (by decide)⟩

/-- C6 (amended): for a JSON number `n`, `convert_type(n, "bool")`
returns the boolean `n ≠ 0` exactly when `n` is an integer representable
as `i64` (`as_i64` succeeds) and absent otherwise; and
`convert_type(n, "booltoint")` is absent for every number — its
`booltoint` branch only converts booleans and strings. -/
theorem c6_convert_bool (ext : Externals) (n : JNum) :
    (∀ i, JNum.as_i64 n = some i →
      convert_type ext (Json.num n) "bool" = some (Json.bool (decide (i ≠ 0)))) ∧
    (JNum.as_i64 n = none → convert_type ext (Json.num n) "bool" = none) ∧
    (convert_type ext (Json.num n) "booltoint" = none) := by
  refine ⟨?_, ?_, ?_⟩
  · intro i hi
    simp [convert_type, Json.as_bool, Json.as_str, Json.as_i64, hi]
  · intro hi
    simp [convert_type, Json.as_bool, Json.as_str, Json.as_i64, hi]
  · simp [convert_type, Json.as_bool, Json.as_str]

/-- C6 counterexample to the claim as stated: the number `1` under
`booltoint` yields absent (the claim says it should yield the i64 `1`),
and the non-integral float number `2.5` under `bool` yields absent (the
claim says every number yields `n ≠ 0`). -/
theorem c6_counterexample :
    convert_type ext0 (Json.num (JNum.posInt 1)) "booltoint" = none ∧
      convert_type ext0 (Json.num (JNum.float { disp := "2.5", fractZero := false }))
        "bool" = none := by
  exact ⟨rfl, rfl⟩

/-- C6 witness: the amended theorem applied to the number `5`. -/
theorem c6_witness :
    JNum.as_i64 (JNum.posInt 5) = some 5 ∧
      convert_type ext0 (Json.num (JNum.posInt 5)) "bool" =
        some (Json.bool (decide ((5 : Int) ≠ 0))) :=
  ⟨by decide, (c6_convert_bool ext0 (JNum.posInt 5)).1 5 (by decide)⟩

/-- C9: `parse_message` decodes the payload bytes UTF-8-lossily; an empty
decoded text yields `null`, a decoded text that parses as JSON yields
the parsed value, and any other decoded text is wrapped as a JSON
string. -/
theorem c9_parse_message_payload (ext : Externals) (cfg : Option Base64DecodeConfig)
    (topic : String) (payload : List Nat) (qos : Nat) :
    ((parse_message ext cfg topic payload qos).payload =
      (if ext.utf8Lossy payload = "" then Json.null
       else (ext.jsonParse (ext.utf8Lossy payload)).getD (Json.str (ext.utf8Lossy payload)))) ∧
    (ext.utf8Lossy payload = "" →
      (parse_message ext cfg topic payload qos).payload = Json.null) ∧
    (∀ j, ext.utf8Lossy payload ≠ "" → ext.jsonParse (ext.utf8Lossy payload) = some j →
      (parse_message ext cfg topic payload qos).payload = j) ∧
    (ext.utf8Lossy payload ≠ "" → ext.jsonParse (ext.utf8Lossy payload) = none →
      (parse_message ext cfg topic payload qos).payload =
        Json.str (ext.utf8Lossy payload)) := by
  have hpay : (parse_message ext cfg topic payload qos).payload =
      (if ext.utf8Lossy payload = "" then Json.null
       else (ext.jsonParse (ext.utf8Lossy payload)).getD (Json.str (ext.utf8Lossy payload))) := by
    unfold parse_message
    cases cfg with
    | none => rfl
    | some config =>
      dsimp only
      split <;> rfl
  refine ⟨hpay, ?_, ?_, ?_⟩
  · intro h
    rw [hpay, if_pos h]
  · intro j h1 h2
    rw [hpay, if_neg h1, h2]
    rfl
  · intro h1 h2
    rw [hpay, if_neg h1, h2]
    rfl

/-- C9 witness: the theorem applied with `ext0` (whose UTF-8-lossy
decoder maps code points directly and whose JSON parser always fails) to
an empty payload and to the bytes of `hi`. -/
theorem c9_witness :
    (ext0.utf8Lossy [] = "" ∧
      (parse_message ext0 none "t" [] 0).payload = Json.null) ∧
    (ext0.utf8Lossy [104, 105] ≠ "" ∧ ext0.jsonParse (ext0.utf8Lossy [104, 105]) = none ∧
      (parse_message ext0 none "t" [104, 105] 0).payload =
        Json.str (ext0.utf8Lossy [104, 105])) :=
  ⟨⟨rfl, (c9_parse_message_payload ext0 none "t" [] 0).2.1 rfl⟩,
    ⟨by decide, rfl,
      (c9_parse_message_payload ext0 none "t" [104, 105] 0).2.2.2 (by decide) rfl⟩⟩

theorem minList_eq_none {l : List Nat} : minList l = none ↔ l = [] := by
  cases l with
  | nil => simp [minList]
  | cons x xs =>
    rw [minList]
    cases minList xs <;> simp

theorem minList_mem {l : List Nat} {m : Nat} (h : minList l = some m) : m ∈ l := by
  induction l generalizing m with
  | nil => simp [minList] at h
  | cons x xs ih =>
    rw [minList] at h
    cases hm : minList xs with
    | none =>
      rw [hm] at h
      simp at h
      simp [h]
    | some m' =>
      rw [hm] at h
      simp at h
      rcases Nat.le_total x m' with hle | hle
      · rw [Nat.min_eq_left hle] at h
        simp [h]
      · rw [Nat.min_eq_right hle] at h
        exact h ▸ List.mem_cons_of_mem _ (ih hm)

theorem minList_le {l : List Nat} {m : Nat} (h : minList l = some m) :
    ∀ x ∈ l, m ≤ x := by
  induction l generalizing m with
  | nil => simp
  | cons x xs ih =>
    intro y hy
    rw [minList] at h
    cases hm : minList xs with
    | none =>
      rw [hm] at h
      have hxs : xs = [] := minList_eq_none.mp hm
      simp at h
      subst hxs
      rcases List.mem_cons.mp hy with rfl | hy
      · omega
      · simp at hy
    | some m' =>
      rw [hm] at h
      simp at h
      rcases List.mem_cons.mp hy with rfl | hy
      · omega
      · have := ih hm y hy
        omega

/-- C8: the cron gate is true iff the (normalised) expression parses and
some designated instant lies in the half-open minute window
`[60⌊t/60⌋, 60⌊t/60⌋ + 60)`; a 5-field expression is normalised by
prepending `0 `; an expression the cron parser rejects makes the gate
return false rather than fail. The cron crate is modelled by `cronParse`
returning the finite set of designated instants, with `after` the least
instant strictly past the probe. -/
theorem c8_schedule_gate (cronParse : String → Option CronSchedule)
    (schedule : String) (time : Nat) :
    (schedule_matches_at cronParse schedule time = true ↔
      ∃ sch, cronParse (normalizeSchedule schedule) = some sch ∧
        ∃ s ∈ sch.instants, 60 * (time / 60) ≤ s ∧ s < 60 * (time / 60) + 60) ∧
    ((splitWhitespaceToks schedule).length = 5 →
      normalizeSchedule schedule = "0 " ++ schedule) ∧
    (cronParse (normalizeSchedule schedule) = none →
      schedule_matches_at cronParse schedule time = false) := by
  refine ⟨?_, ?_, ?_⟩
  · unfold schedule_matches_at
    dsimp only
    cases hparse : cronParse (normalizeSchedule schedule) with
    | none =>
      simp only [Bool.false_eq_true, false_iff]
      rintro ⟨sch', hsch', _⟩
      simp at hsch'
    | some sch =>
      dsimp only
      cases hafter : cronAfter sch (((60 * (time / 60) : Nat) : Int) - 1) with
      | none =>
        simp only [Bool.false_eq_true, false_iff]
        rintro ⟨sch', hsch', s, hs, h1, h2⟩
        injection hsch' with hsch'
        subst hsch'
        unfold cronAfter at hafter
        rw [minList_eq_none, List.eq_nil_iff_forall_not_mem] at hafter
        apply hafter s
        rw [List.mem_filter]
        refine ⟨hs, ?_⟩
        rw [decide_eq_true_eq]
        omega
      | some next =>
        dsimp only
        unfold cronAfter at hafter
        have hmem := minList_mem hafter
        rw [List.mem_filter] at hmem
        have hlt := of_decide_eq_true hmem.2
        have hnext1 : 60 * (time / 60) ≤ next := by omega
        constructor
        · intro hdec
          rw [decide_eq_true_eq] at hdec
          exact ⟨sch, rfl, next, hmem.1, by omega, by omega⟩
        · rintro ⟨sch', hsch', s, hs, h1, h2⟩
          injection hsch' with hsch'
          subst hsch'
          have hns : next ≤ s := by
            apply minList_le hafter
            rw [List.mem_filter]
            refine ⟨hs, ?_⟩
            rw [decide_eq_true_eq]
            omega
          rw [decide_eq_true_eq]
          omega
  · intro h
    unfold normalizeSchedule
    rw [if_pos h]
  · intro h
    unfold schedule_matches_at
    dsimp only
    rw [h]

/-- C8 witness: a model cron parser accepting exactly the normalised
6-field form of `*/5 * * * *` and designating seconds 0, 300 and 600;
the gate is true at second 330 (minute 05, second 30) and false at
second 420 (minute 07). -/
theorem c8_witness :
    ((splitWhitespaceToks "*/5 * * * *").length = 5 ∧
      normalizeSchedule "*/5 * * * *" = "0 " ++ "*/5 * * * *") ∧
    schedule_matches_at
      (fun s => if s = "0 */5 * * * *" then some { instants := [0, 300, 600] } else none)
      "*/5 * * * *" 330 = true ∧
    schedule_matches_at
      (fun s => if s = "0 */5 * * * *" then some { instants := [0, 300, 600] } else none)
      "*/5 * * * *" 420 = false :=
  ⟨⟨by decide,
    (c8_schedule_gate
      (fun s => if s = "0 */5 * * * *" then some { instants := [0, 300, 600] } else none)
      "*/5 * * * *" 330).2.1 (by decide)⟩,
    by decide, by decide⟩

theorem foldl_append_eq_flatMap {α β : Type} (f : α → List β) (l : List α) :
    ∀ init : List β, l.foldl (fun acc x => acc ++ f x) init = init ++ l.flatMap f := by
  induction l with
  | nil => intro init; simp
  | cons x xs ih =>
    intro init
    rw [List.foldl_cons, ih, List.flatMap_cons, List.append_assoc]

theorem process_point_cases (ext : Externals) (sinks : Sinks) (nowNanos : Int)
    (pc : PointConfig) (parsed : ParsedMessage) :
    (process_point ext sinks nowNanos pc parsed = ([], Except.ok ())) ∨
    (∃ m e, process_point ext sinks nowNanos pc parsed =
      ([Event.writeAttempt m], Except.error e)) ∨
    (∃ m, process_point ext sinks nowNanos pc parsed =
      ([Event.writeAttempt m], Except.ok ())) ∨
    (∃ m j, process_point ext sinks nowNanos pc parsed =
      ([Event.writeAttempt m, Event.forwardJson j], Except.ok ())) := by
  unfold process_point
  cases get_value ext pc.measurement parsed with
  | none => exact Or.inl rfl
  | some mval =>
    dsimp only
    split
    · exact Or.inl rfl
    · split
      · exact Or.inr (Or.inl ⟨_, _, rfl⟩)
      · split
        · split
          · split
            · exact Or.inr (Or.inr (Or.inr ⟨_, _, rfl⟩))
            · exact Or.inr (Or.inr (Or.inl ⟨_, rfl⟩))
          · exact Or.inr (Or.inr (Or.inl ⟨_, rfl⟩))
        · exact Or.inr (Or.inr (Or.inl ⟨_, rfl⟩))

/-- C10: the dispatch loop processes every point specification
independently — the trace of `process_message` is the concatenation of
each specification's own trace, so a failing write in one specification
never suppresses later specifications — and a specification whose
`write_point` fails (the only `Err` source of `process_point`) never
calls `forward_json`. -/
theorem c10_write_error_isolation (ext : Externals) (sinks : Sinks) (nowNanos : Int)
    (gate : String → Bool) (points : List PointConfig) (topic : String)
    (payload : List Nat) (qos : Nat) (cfg : Option Base64DecodeConfig) :
    (process_message ext sinks nowNanos gate points topic payload qos cfg =
      points.flatMap (perConfigEvents ext sinks nowNanos gate topic
        (parse_message ext cfg topic payload qos))) ∧
    (∀ pc parsed e, (process_point ext sinks nowNanos pc parsed).2 = Except.error e →
      ∀ j, Event.forwardJson j ∉ (process_point ext sinks nowNanos pc parsed).1) := by
  constructor
  · unfold process_message
    rw [foldl_append_eq_flatMap]
    rfl
  · intro pc parsed e herr j
    rcases process_point_cases ext sinks nowNanos pc parsed with
      h | ⟨m, e', h⟩ | ⟨m, h⟩ | ⟨m, j', h⟩
    · rw [h] at herr
      simp at herr
    · rw [h]
      simp
    · rw [h] at herr
      simp at herr
    · rw [h] at herr
      simp at herr

/-- C10 witness: with a writer that always fails, a matching
specification's `process_point` returns an error, its trace contains the
write attempt but no forward call, and a sibling specification after it
is still processed (the message trace is both specifications' traces
concatenated). -/
theorem c10_witness :
    ((process_point ext0 sinksFail 0 cfg1 msg0).2 = Except.error "boom" ∧
      Event.forwardJson (Json.obj []) ∉ (process_point ext0 sinksFail 0 cfg1 msg0).1) ∧
    process_message ext0 sinksFail 0 (fun _ => true) [cfg1, cfg1] "t" [] 0 none =
      [cfg1, cfg1].flatMap (perConfigEvents ext0 sinksFail 0 (fun _ => true) "t"
        (parse_message ext0 none "t" [] 0)) :=
  ⟨⟨rfl, (c10_write_error_isolation ext0 sinksFail 0 (fun _ => true) [cfg1] "t" [] 0 none).2
      cfg1 msg0 "boom" rfl (Json.obj [])⟩,
    (c10_write_error_isolation ext0 sinksFail 0 (fun _ => true) [cfg1, cfg1] "t" [] 0 none).1⟩

theorem takeWhile_append_all (p : Char → Bool) :
    ∀ (l1 l2 : List Char), (∀ c ∈ l1, p c = true) →
      (l1 ++ l2).takeWhile p = l1 ++ l2.takeWhile p := by
  intro l1
  induction l1 with
  | nil =>
    intro l2 _
    rfl
  | cons c cs ih =>
    intro l2 h
    rw [List.cons_append, List.takeWhile_cons_of_pos (h c (List.mem_cons_self _ _)),
      ih l2 (fun x hx => h x (List.mem_cons_of_mem _ hx)), List.cons_append]

theorem takeWhile_all (p : Char → Bool) (l : List Char) (h : ∀ c ∈ l, p c = true) :
    l.takeWhile p = l := by
  have h2 := takeWhile_append_all p l [] h
  simpa using h2

theorem isWordChar_not_ws {c : Char} (h : isWordChar c = true) : c.isWhitespace = false := by
  by_contra hws
  rw [Bool.not_eq_false] at hws
  have h4 : ((c = ' ' ∨ c = '\t') ∨ c = '\x0d') ∨ c = '\n' := by
    simpa [Char.isWhitespace] using hws
  rcases h4 with ((rfl | rfl) | rfl) | rfl <;> exact absurd h (by decide)

theorem groupCandidates_head (b tail : List Char) (hb : b ≠ [])
    (hbw : ∀ c ∈ b, isWordChar c = true) :
    ∃ cs, groupCandidates (b ++ ' ' :: tail) = (b, ' ' :: tail) :: cs := by
  have hrun : (b ++ ' ' :: tail).takeWhile isWordChar = b := by
    rw [takeWhile_append_all isWordChar b (' ' :: tail) hbw,
      List.takeWhile_cons_of_neg (by decide), List.append_nil]
  cases b with
  | nil => exact absurd rfl hb
  | cons b0 b' =>
    exact ⟨_, by
      unfold groupCandidates wordCandidates
      dsimp only
      rw [hrun]
      rw [show (b0 :: b').length = b'.length + 1 from rfl, List.range_succ_eq_map, List.map_cons]
      rw [List.cons_append, List.cons_append]
      congr 1
      rw [Nat.sub_zero]
      rw [List.take_left' (show (b0 :: b').length = b'.length + 1 from rfl),
        List.drop_left' (show (b0 :: b').length = b'.length + 1 from rfl)]⟩

theorem groupCandidates_head_all (e : List Char) (he : e ≠ [])
    (hew : ∀ c ∈ e, isWordChar c = true) :
    ∃ cs, groupCandidates e = (e, []) :: cs := by
  have hrun : e.takeWhile isWordChar = e := takeWhile_all isWordChar e hew
  cases e with
  | nil => exact absurd rfl he
  | cons e0 e' =>
    exact ⟨_, by
      unfold groupCandidates wordCandidates
      dsimp only
      rw [hrun]
      rw [show (e0 :: e').length = e'.length + 1 from rfl, List.range_succ_eq_map, List.map_cons]
      rw [List.cons_append, List.cons_append]
      congr 1
      rw [Nat.sub_zero]
      rw [show e'.length + 1 = (e0 :: e').length from rfl, List.take_length, List.drop_length]⟩

theorem powerTail_sep (e0 : Char) (e' : List Char) (hw0 : isWordChar e0 = true)
    (hew : ∀ c ∈ e', isWordChar c = true) :
    powerTail (' ' :: '^' :: ' ' :: e0 :: e') = some ([' ', '^', ' '], e0 :: e') := by
  have hall : ∀ c ∈ e0 :: e', isWordChar c = true := by
    intro c hc
    rcases List.mem_cons.mp hc with rfl | hc
    · exact hw0
    · exact hew c hc
  obtain ⟨cs, hgc⟩ := groupCandidates_head_all (e0 :: e') (by simp) hall
  unfold powerTail
  rw [List.takeWhile_cons_of_pos (by decide), List.takeWhile_cons_of_neg (by decide),
    List.dropWhile_cons_of_pos (by decide), List.dropWhile_cons_of_neg (by decide)]
  dsimp only
  split
  · rename_i r2 heq
    injection heq with _ h2
    subst h2
    rw [List.takeWhile_cons_of_pos (by decide),
      List.takeWhile_cons_of_neg (by simp [isWordChar_not_ws hw0]),
      List.dropWhile_cons_of_pos (by decide),
      List.dropWhile_cons_of_neg (by simp [isWordChar_not_ws hw0]), hgc]
    rfl
  · rename_i hne
    exact absurd rfl (hne _)

theorem matchPowerAt_eq (b : List Char) (e0 : Char) (e' : List Char) (hb : b ≠ [])
    (hbw : ∀ c ∈ b, isWordChar c = true) (hw0 : isWordChar e0 = true)
    (hew : ∀ c ∈ e', isWordChar c = true) :
    matchPowerAt (b ++ ' ' :: '^' :: ' ' :: e0 :: e') =
      some (b ++ [' ', '^', ' '] ++ (e0 :: e'), b, e0 :: e') := by
  obtain ⟨cs, hgc⟩ := groupCandidates_head b ('^' :: ' ' :: e0 :: e') hb hbw
  unfold matchPowerAt
  rw [hgc, List.findSome?_cons]
  dsimp only
  rw [powerTail_sep e0 e' hw0 hew]

theorem findPowerMatch_eq (b : List Char) (e0 : Char) (e' : List Char) (hb : b ≠ [])
    (hbw : ∀ c ∈ b, isWordChar c = true) (hw0 : isWordChar e0 = true)
    (hew : ∀ c ∈ e', isWordChar c = true) :
    findPowerMatch (b ++ ' ' :: '^' :: ' ' :: e0 :: e') =
      some (b ++ [' ', '^', ' '] ++ (e0 :: e'), b, e0 :: e') := by
  have hm := matchPowerAt_eq b e0 e' hb hbw hw0 hew
  cases b with
  | nil => exact absurd rfl hb
  | cons b0 b' =>
    rw [List.cons_append] at hm ⊢
    rw [findPowerMatch, hm]

theorem replaceFirstList_self (l repl : List Char) (h : l ≠ []) :
    replaceFirstList l repl l = repl := by
  cases l with
  | nil => exact absurd rfl h
  | cons c rest =>
    have hpre : (c :: rest).isPrefixOf (c :: rest) := by
      rw [List.isPrefixOf_iff_prefix]
    rw [replaceFirstList, if_pos ⟨by simp, hpre⟩, List.drop_length, List.append_nil]

theorem groupCandidates_rest_mem (s : List Char) :
    ∀ cand ∈ groupCandidates s, ∀ x ∈ cand.2, x ∈ s := by
  intro cand hc x hx
  unfold groupCandidates at hc
  rw [List.mem_append, List.mem_append] at hc
  rcases hc with (hc | hc) | hc
  · unfold wordCandidates at hc
    rw [List.mem_map] at hc
    obtain ⟨k, _, rfl⟩ := hc
    exact List.drop_subset _ _ hx
  · unfold numCandidates at hc
    rw [List.mem_flatMap] at hc
    obtain ⟨k, _, hk⟩ := hc
    dsimp only at hk
    rw [List.mem_append] at hk
    rcases hk with hk | hk
    · split at hk
      · rename_i rest2 heq
        rw [List.mem_map] at hk
        obtain ⟨j, _, rfl⟩ := hk
        have hx2 : x ∈ '.' :: rest2 :=
          List.mem_cons_of_mem _ (List.drop_subset _ _ hx)
        rw [← heq] at hx2
        exact List.drop_subset _ _ hx2
      · simp at hk
    · rw [List.mem_singleton] at hk
      subst hk
      exact List.drop_subset _ _ hx
  · cases s with
    | nil => simp [parenCandidate] at hc
    | cons c0 rest =>
      by_cases hc0 : c0 = '('
      · subst hc0
        unfold parenCandidate at hc
        split at hc
        · rename_i rest' heq
          injection heq with h1 h2
          subst h2
          dsimp only at hc
          split at hc
          · rename_i rest2 heq2
            split at hc
            · simp at hc
            · rw [List.mem_singleton] at hc
              subst hc
              have hx2 : x ∈ ')' :: rest2 := List.mem_cons_of_mem _ hx
              rw [← heq2] at hx2
              exact List.mem_cons_of_mem _ ((List.dropWhile_sublist _).subset hx2)
          · simp at hc
        · simp at hc
      · have hpc : parenCandidate (c0 :: rest) = [] := by
          unfold parenCandidate
          split
          · rename_i rest' heq
            injection heq with h1 _
            exact absurd h1 hc0
          · rfl
        rw [hpc] at hc
        simp at hc

theorem powerTail_none {r : List Char} (h : '^' ∉ r) : powerTail r = none := by
  unfold powerTail
  cases hd : r.dropWhile Char.isWhitespace with
  | nil => rfl
  | cons c r2 =>
    have hcm : c ∈ r := (List.dropWhile_sublist _).subset (hd ▸ List.mem_cons_self c r2)
    have hcc : c ≠ '^' := fun hne => h (hne ▸ hcm)
    dsimp only
    split
    · rename_i r2' heq
      injection heq with h1 _
      exact absurd h1 hcc
    · rfl

theorem matchPowerAt_none {s : List Char} (h : '^' ∉ s) : matchPowerAt s = none := by
  unfold matchPowerAt
  rw [List.findSome?_eq_none_iff]
  intro cand hcand
  have hsub := groupCandidates_rest_mem s cand hcand
  have hnc : '^' ∉ cand.2 := fun hxx => h (hsub '^' hxx)
  rw [powerTail_none hnc]

theorem findPowerMatch_none {s : List Char} (h : '^' ∉ s) : findPowerMatch s = none := by
  induction s with
  | nil => rfl
  | cons c rest ih =>
    rw [findPowerMatch, matchPowerAt_none h]
    exact ih (fun hc => h (List.mem_cons_of_mem _ hc))

theorem convertPowerLoop_step (fuel : Nat) (r full base exp : List Char)
    (h : findPowerMatch r = some (full, base, exp)) :
    convertPowerLoop (fuel + 1) r =
      convertPowerLoop fuel
        (replaceFirstList full ("math::pow(".data ++ base ++ ", ".data ++ exp ++ [')']) r) := by
  rw [convertPowerLoop, h]

theorem convertPowerLoop_done (fuel : Nat) (r : List Char) (h : findPowerMatch r = none) :
    convertPowerLoop fuel r = r := by
  cases fuel with
  | zero => rfl
  | succ f => rw [convertPowerLoop, h]

theorem dropWhile_append_all (p : Char → Bool) :
    ∀ (l1 l2 : List Char), (∀ c ∈ l1, p c = true) →
      (l1 ++ l2).dropWhile p = l2.dropWhile p := by
  intro l1
  induction l1 with
  | nil =>
    intro l2 _
    rfl
  | cons c cs ih =>
    intro l2 h
    rw [List.cons_append, List.dropWhile_cons_of_pos (h c (List.mem_cons_self _ _)),
      ih l2 (fun x hx => h x (List.mem_cons_of_mem _ hx))]

theorem ws_not_word {c : Char} (h : c.isWhitespace = true) : isWordChar c = false := by
  by_contra hw
  rw [Bool.not_eq_false] at hw
  rw [isWordChar_not_ws hw] at h
  exact absurd h (by decide)

theorem word_of_digit {c : Char} (h : c.isDigit = true) : isWordChar c = true := by
  unfold isWordChar
  rw [h]
  simp

theorem not_digit_of_not_word {c : Char} (h : isWordChar c = false) : c.isDigit = false := by
  by_contra hd
  rw [Bool.not_eq_false] at hd
  rw [word_of_digit hd] at h
  exact absurd h (by decide)

theorem wordCandidates_nil (c : Char) (t : List Char) (h : isWordChar c = false) :
    wordCandidates (c :: t) = [] := by
  unfold wordCandidates
  dsimp only
  rw [List.takeWhile_cons_of_neg (by simp [h])]
  rfl

theorem numCandidates_nil (c : Char) (t : List Char) (h : c.isDigit = false) :
    numCandidates (c :: t) = [] := by
  unfold numCandidates
  dsimp only
  rw [List.takeWhile_cons_of_neg (by simp [h])]
  rfl

theorem parenCandidate_eq (inner rest : List Char) (hne : inner ≠ []) (hnp : ')' ∉ inner) :
    parenCandidate ('(' :: (inner ++ ')' :: rest)) = [('(' :: (inner ++ [')']), rest)] := by
  have hin : ∀ c ∈ inner, (!(c == ')')) = true := by
    intro c hc
    have hcc : c ≠ ')' := fun h => hnp (h ▸ hc)
    simp [hcc]
  unfold parenCandidate
  split
  · rename_i rest2 heq
    injection heq with _ h2
    subst h2
    dsimp only
    rw [takeWhile_append_all _ inner _ hin, List.takeWhile_cons_of_neg (by simp),
      List.append_nil, dropWhile_append_all _ inner _ hin,
      List.dropWhile_cons_of_neg (by simp)]
    split
    · rename_i rest3 heq2
      injection heq2 with _ h3
      subst h3
      rw [if_neg (by simp [List.isEmpty_iff, hne])]
      rfl
    · rename_i hne2
      exact absurd rfl (hne2 _)
  · rename_i hne1
    exact absurd rfl (hne1 _)

theorem groupCandidates_paren (inner rest : List Char) (hne : inner ≠ [])
    (hnp : ')' ∉ inner) :
    groupCandidates ('(' :: (inner ++ ')' :: rest)) = [('(' :: (inner ++ [')']), rest)] := by
  unfold groupCandidates
  rw [wordCandidates_nil _ _ (by decide), numCandidates_nil _ _ (by decide),
    parenCandidate_eq inner rest hne hnp]
  rfl

theorem expOperand_ne_nil {e : List Char} (h : expOperand e) : e ≠ [] := by
  rcases h with ⟨hne, _⟩ | ⟨inner, rfl, _, _, _⟩
  · exact hne
  · simp

theorem expOperand_head_not_ws {e0 : Char} {e' : List Char} (h : expOperand (e0 :: e')) :
    e0.isWhitespace = false := by
  rcases h with ⟨_, hw⟩ | ⟨inner, heq, _, _, _⟩
  · exact isWordChar_not_ws (hw e0 (List.mem_cons_self _ _))
  · injection heq with h1 _
    subst h1
    decide

theorem expOperand_no_caret {e : List Char} (h : expOperand e) : '^' ∉ e := by
  rcases h with ⟨_, hw⟩ | ⟨inner, rfl, _, _, hx⟩
  · exact fun hc => absurd (hw '^' hc) (by decide)
  · intro hc
    rcases List.mem_cons.mp hc with h1 | h1
    · exact absurd h1 (by decide)
    · rcases List.mem_append.mp h1 with h2 | h2
      · exact hx h2
      · rw [List.mem_singleton] at h2
        exact absurd h2 (by decide)

theorem expOperand_head {e : List Char} (h : expOperand e) :
    (groupCandidates e).head? = some (e, []) := by
  rcases h with ⟨hne, hw⟩ | ⟨inner, rfl, hni, hnp, _⟩
  · obtain ⟨cs, hgc⟩ := groupCandidates_head_all e hne hw
    rw [hgc]
    rfl
  · rw [groupCandidates_paren inner [] hni hnp]
    rfl

theorem baseOperand_ne_nil {b : List Char} (h : baseOperand b) : b ≠ [] := by
  rcases h with ⟨hne, _⟩ | ⟨d1, d2, rfl, _, _, _⟩ | ⟨inner, rfl, _, _, _⟩
  · exact hne
  · simp
  · simp

theorem baseOperand_no_caret {b : List Char} (h : baseOperand b) : '^' ∉ b := by
  rcases h with ⟨_, hw⟩ | ⟨d1, d2, rfl, _, hd1, hd2⟩ | hp
  · exact fun hc => absurd (hw '^' hc) (by decide)
  · intro hc
    rcases List.mem_append.mp hc with hc | hc
    · exact absurd (hd1 '^' hc) (by decide)
    · rcases List.mem_cons.mp hc with hc | hc
      · exact absurd hc (by decide)
      · exact absurd (hd2 '^' hc) (by decide)
  · exact expOperand_no_caret (Or.inr hp)

theorem powerTail_stuck {c : Char} (t : List Char) (hws : c.isWhitespace = false)
    (hc : c ≠ '^') : powerTail (c :: t) = none := by
  unfold powerTail
  rw [List.dropWhile_cons_of_neg (by simp [hws])]
  dsimp only
  split
  · rename_i r2 heq
    injection heq with h1 _
    exact absurd h1 hc
  · rfl

theorem powerTail_run (sp1 sp2 e : List Char)
    (h1 : ∀ c ∈ sp1, c.isWhitespace = true) (h2 : ∀ c ∈ sp2, c.isWhitespace = true)
    (he : expOperand e) :
    powerTail (sp1 ++ '^' :: (sp2 ++ e)) = some (sp1 ++ '^' :: sp2, e) := by
  obtain ⟨e0, e2, rfl⟩ : ∃ e0 e2, e = e0 :: e2 := by
    cases e with
    | nil => exact absurd rfl (expOperand_ne_nil he)
    | cons e0 e2 => exact ⟨e0, e2, rfl⟩
  have hhd : e0.isWhitespace = false := expOperand_head_not_ws he
  unfold powerTail
  rw [takeWhile_append_all _ sp1 _ h1, List.takeWhile_cons_of_neg (by decide),
    List.append_nil, dropWhile_append_all _ sp1 _ h1, List.dropWhile_cons_of_neg (by decide)]
  dsimp only
  split
  · rename_i r2 heq
    injection heq with _ hr2
    subst hr2
    rw [takeWhile_append_all _ sp2 _ h2, List.takeWhile_cons_of_neg (by simp [hhd]),
      List.append_nil, dropWhile_append_all _ sp2 _ h2,
      List.dropWhile_cons_of_neg (by simp [hhd]), expOperand_head he]
  · rename_i hne
    exact absurd rfl (hne _)

theorem groupCandidates_head_append (b rest : List Char) (hb : b ≠ [])
    (hbw : ∀ c ∈ b, isWordChar c = true) (hrest : rest.takeWhile isWordChar = []) :
    ∃ cs, groupCandidates (b ++ rest) = (b, rest) :: cs := by
  have hrun : (b ++ rest).takeWhile isWordChar = b := by
    rw [takeWhile_append_all isWordChar b rest hbw, hrest, List.append_nil]
  cases b with
  | nil => exact absurd rfl hb
  | cons b0 b2 =>
    exact ⟨_, by
      unfold groupCandidates wordCandidates
      dsimp only
      rw [hrun]
      rw [show (b0 :: b2).length = b2.length + 1 from rfl, List.range_succ_eq_map,
        List.map_cons]
      rw [List.cons_append, List.cons_append]
      congr 1
      rw [Nat.sub_zero]
      rw [List.take_left' (show (b0 :: b2).length = b2.length + 1 from rfl),
        List.drop_left' (show (b0 :: b2).length = b2.length + 1 from rfl)]⟩

theorem findSome_append_none {α β : Type} (f : α → Option β) (l1 l2 : List α)
    (h : ∀ x ∈ l1, f x = none) : (l1 ++ l2).findSome? f = l2.findSome? f := by
  induction l1 with
  | nil => rfl
  | cons a l ih =>
    rw [List.cons_append, List.findSome?_cons, h a (List.mem_cons_self _ _)]
    exact ih (fun x hx => h x (List.mem_cons_of_mem _ hx))

theorem findSome_append_head {α β : Type} (f : α → Option β) (l1 l2 : List α) {a : α}
    {y : β} (hh : l1.head? = some a) (hf : f a = some y) :
    (l1 ++ l2).findSome? f = some y := by
  cases l1 with
  | nil => simp at hh
  | cons x xs =>
    rw [List.head?_cons] at hh
    injection hh with hx
    subst hx
    rw [List.cons_append, List.findSome?_cons, hf]

theorem matchPowerAt_word (b rest sep exp : List Char) (hb : b ≠ [])
    (hbw : ∀ c ∈ b, isWordChar c = true) (hrest : rest.takeWhile isWordChar = [])
    (hpt : powerTail rest = some (sep, exp)) :
    matchPowerAt (b ++ rest) = some (b ++ sep ++ exp, b, exp) := by
  obtain ⟨cs, hgc⟩ := groupCandidates_head_append b rest hb hbw hrest
  unfold matchPowerAt
  rw [hgc, List.findSome?_cons]
  dsimp only
  rw [hpt]

theorem matchPowerAt_paren (inner rest sep exp : List Char) (hne : inner ≠ [])
    (hnp : ')' ∉ inner) (hpt : powerTail rest = some (sep, exp)) :
    matchPowerAt ('(' :: (inner ++ ')' :: rest)) =
      some (('(' :: (inner ++ [')'])) ++ sep ++ exp, '(' :: (inner ++ [')']), exp) := by
  unfold matchPowerAt
  rw [groupCandidates_paren inner rest hne hnp, List.findSome?_cons]
  dsimp only
  rw [hpt]

theorem numCandidates_dec (d1 d2 rest : List Char) (h1 : d1 ≠ [])
    (hd1 : ∀ c ∈ d1, c.isDigit = true) (hd2 : ∀ c ∈ d2, c.isDigit = true)
    (hrest : rest.takeWhile Char.isDigit = []) :
    (numCandidates (d1 ++ '.' :: (d2 ++ rest))).head? = some (d1 ++ '.' :: d2, rest) := by
  have hrun : (d1 ++ '.' :: (d2 ++ rest)).takeWhile Char.isDigit = d1 := by
    rw [takeWhile_append_all _ d1 _ hd1, List.takeWhile_cons_of_neg (by decide),
      List.append_nil]
  have hd2run : (d2 ++ rest).takeWhile Char.isDigit = d2 := by
    rw [takeWhile_append_all _ d2 _ hd2, hrest, List.append_nil]
  cases d1 with
  | nil => exact absurd rfl h1
  | cons a d3 =>
    unfold numCandidates
    dsimp only
    rw [hrun]
    rw [show (a :: d3).length = d3.length + 1 from rfl, List.range_succ_eq_map,
      List.flatMap_cons]
    simp only [Nat.sub_zero]
    rw [List.drop_left' (show (a :: d3).length = d3.length + 1 from rfl)]
    split
    · rename_i rest2 heq
      injection heq with _ h2
      subst h2
      rw [hd2run]
      rw [List.range_succ_eq_map, List.map_cons]
      simp only [Nat.sub_zero]
      rw [List.take_left' (show (a :: d3).length = d3.length + 1 from rfl),
        List.take_length, List.drop_left]
      rfl
    · rename_i hne2
      exact absurd rfl (hne2 _)

theorem matchPowerAt_dec (d1 d2 rest sep exp : List Char) (h1 : d1 ≠ [])
    (hd1 : ∀ c ∈ d1, c.isDigit = true) (hd2 : ∀ c ∈ d2, c.isDigit = true)
    (hrestw : rest.takeWhile isWordChar = [])
    (hpt : powerTail rest = some (sep, exp)) :
    matchPowerAt (d1 ++ '.' :: (d2 ++ rest)) =
      some ((d1 ++ '.' :: d2) ++ sep ++ exp, d1 ++ '.' :: d2, exp) := by
  have hrestd : rest.takeWhile Char.isDigit = [] := by
    cases rest with
    | nil => rfl
    | cons r0 r2 =>
      have hw0 : isWordChar r0 = false := by
        by_contra hw
        rw [Bool.not_eq_false] at hw
        rw [List.takeWhile_cons_of_pos hw] at hrestw
        exact absurd hrestw (by simp)
      rw [List.takeWhile_cons_of_neg (by simp [not_digit_of_not_word hw0])]
  have hnum := numCandidates_dec d1 d2 rest h1 hd1 hd2 hrestd
  have hrunw : (d1 ++ '.' :: (d2 ++ rest)).takeWhile isWordChar = d1 := by
    rw [takeWhile_append_all _ d1 _ (fun c hc => word_of_digit (hd1 c hc)),
      List.takeWhile_cons_of_neg (by decide), List.append_nil]
  have hpw : ∀ cand ∈ wordCandidates (d1 ++ '.' :: (d2 ++ rest)),
      powerTail cand.2 = none := by
    intro cand hc
    unfold wordCandidates at hc
    rw [List.mem_map] at hc
    obtain ⟨k, hk, rfl⟩ := hc
    rw [List.mem_range] at hk
    dsimp only
    rw [hrunw] at hk ⊢
    have hn1 : 1 ≤ d1.length - k := by omega
    have hn2 : d1.length - k ≤ d1.length := by omega
    rw [List.drop_append_of_le_length hn2]
    cases hdn : d1.drop (d1.length - k) with
    | nil =>
      rw [List.nil_append]
      exact powerTail_stuck _ (by decide) (by decide)
    | cons c cs =>
      rw [List.cons_append]
      have hcd : c.isDigit = true :=
        hd1 c (List.drop_subset _ _ (hdn ▸ List.mem_cons_self c cs))
      refine powerTail_stuck _ (isWordChar_not_ws (word_of_digit hcd)) ?_
      intro heq
      subst heq
      exact absurd hcd (by decide)
  unfold matchPowerAt groupCandidates
  rw [List.append_assoc]
  rw [findSome_append_none]
  · refine findSome_append_head _ _ _ hnum ?_
    dsimp only
    rw [hpt]
  · intro x hx
    dsimp only
    rw [hpw x hx]

theorem findPowerMatch_head {s : List Char} {m : List Char × List Char × List Char}
    (hne : s ≠ []) (h : matchPowerAt s = some m) : findPowerMatch s = some m := by
  cases s with
  | nil => exact absurd rfl hne
  | cons c rest => rw [findPowerMatch, h]

/-- C7 (amended): a single `base ^ exponent` occurrence forming the whole
expression — with any amount of whitespace (including none) around `^`, the
base a word-character run (identifier or integer literal), a decimal
literal, or a parenthesised subexpression, and the exponent a
word-character run or a parenthesised subexpression — is lowered to the
power-function call `math::pow(base, exponent)`. Concretely, inside a
larger expression `1 + 2 ^ 3` becomes `1 + math::pow(2, 3)`; a decimal
exponent is truncated at the dot by the leftmost-first alternation
(`2 ^ 3.5` becomes `math::pow(2, 3).5`); and `(2 + 1) ^ 2` becomes
`math::pow((2 + 1), 2)` (which the evaluator computes as 9). Chained `^`
is not supported (see the counterexample). -/
theorem c7_power_operator (b sp1 sp2 e : List Char) (hb : baseOperand b)
    (he : expOperand e) (h1 : ∀ c ∈ sp1, c.isWhitespace = true)
    (h2 : ∀ c ∈ sp2, c.isWhitespace = true) :
    convert_power_operator (String.mk (b ++ sp1 ++ '^' :: sp2 ++ e)) =
      String.mk ("math::pow(".data ++ b ++ ", ".data ++ e ++ [')']) ∧
    convert_power_operator "1 + 2 ^ 3" = "1 + math::pow(2, 3)" ∧
    convert_power_operator "2 ^ 3.5" = "math::pow(2, 3).5" ∧
    convert_power_operator "(2 + 1) ^ 2" = "math::pow((2 + 1), 2)" := by
  refine ⟨?_, rfl, rfl, rfl⟩
  have hrest_tw : (sp1 ++ '^' :: (sp2 ++ e)).takeWhile isWordChar = [] := by
    cases sp1 with
    | nil =>
      rw [List.nil_append]
      exact List.takeWhile_cons_of_neg (by decide)
    | cons c sp3 =>
      rw [List.cons_append]
      exact List.takeWhile_cons_of_neg (by simp [ws_not_word (h1 c (List.mem_cons_self _ _))])
  have hpt : powerTail (sp1 ++ '^' :: (sp2 ++ e)) = some (sp1 ++ '^' :: sp2, e) :=
    powerTail_run sp1 sp2 e h1 h2 he
  have hfind : findPowerMatch (b ++ (sp1 ++ '^' :: (sp2 ++ e))) =
      some (b ++ (sp1 ++ '^' :: sp2) ++ e, b, e) := by
    rcases hb with ⟨hne, hw⟩ | ⟨d1, d2, rfl, hd1ne, hd1, hd2⟩ | ⟨inner, rfl, hine, hinp, _⟩
    · refine findPowerMatch_head ?_ (matchPowerAt_word b _ _ _ hne hw hrest_tw hpt)
      cases b with
      | nil => exact absurd rfl hne
      | cons c t => simp
    · have heq : (d1 ++ '.' :: d2) ++ (sp1 ++ '^' :: (sp2 ++ e)) =
          d1 ++ '.' :: (d2 ++ (sp1 ++ '^' :: (sp2 ++ e))) := by
        rw [List.append_assoc, List.cons_append]
      rw [heq]
      refine findPowerMatch_head ?_ (matchPowerAt_dec d1 d2 _ _ _ hd1ne hd1 hd2 hrest_tw hpt)
      cases d1 with
      | nil => exact absurd rfl hd1ne
      | cons a t => simp
    · have heq : ('(' :: (inner ++ [')'])) ++ (sp1 ++ '^' :: (sp2 ++ e)) =
          '(' :: (inner ++ ')' :: (sp1 ++ '^' :: (sp2 ++ e))) := by
        rw [List.cons_append, List.append_assoc, List.singleton_append]
      rw [heq]
      exact findPowerMatch_head (by simp) (matchPowerAt_paren inner _ _ _ hine hinp hpt)
  have hb_caret : '^' ∉ b := baseOperand_no_caret hb
  have he_caret : '^' ∉ e := expOperand_no_caret he
  have hsp1 : '^' ∉ sp1 := fun hc => absurd (h1 '^' hc) (by decide)
  have hsp2 : '^' ∉ sp2 := fun hc => absurd (h2 '^' hc) (by decide)
  have hcount : (b ++ (sp1 ++ '^' :: (sp2 ++ e))).count '^' = 1 := by
    rw [List.count_append, List.count_append, List.count_cons, List.count_append]
    rw [List.count_eq_zero.mpr hb_caret, List.count_eq_zero.mpr hsp1,
      List.count_eq_zero.mpr hsp2, List.count_eq_zero.mpr he_caret]
    simp
  have hrepl : '^' ∉ "math::pow(".data ++ b ++ ", ".data ++ e ++ [')'] := by
    intro hc
    rw [List.mem_append, List.mem_append, List.mem_append, List.mem_append] at hc
    rcases hc with (((hc | hc) | hc) | hc) | hc
    · exact absurd hc (by decide)
    · exact hb_caret hc
    · exact absurd hc (by decide)
    · exact he_caret hc
    · exact absurd hc (by decide)
  have hfull : b ++ (sp1 ++ '^' :: sp2) ++ e = b ++ (sp1 ++ '^' :: (sp2 ++ e)) := by
    rw [List.append_assoc, List.append_assoc, List.cons_append]
  have hs : b ++ sp1 ++ '^' :: sp2 ++ e = b ++ (sp1 ++ '^' :: (sp2 ++ e)) := by
    rw [List.append_assoc, List.cons_append, List.append_assoc]
  rw [hs]
  unfold convert_power_operator
  refine congrArg String.mk ?_
  show convertPowerLoop
      ((String.mk (b ++ (sp1 ++ '^' :: (sp2 ++ e)))).data.count '^' + 1)
      (String.mk (b ++ (sp1 ++ '^' :: (sp2 ++ e)))).data = _
  rw [show (String.mk (b ++ (sp1 ++ '^' :: (sp2 ++ e)))).data
      = b ++ (sp1 ++ '^' :: (sp2 ++ e)) from rfl]
  rw [hcount, convertPowerLoop_step 1 _ _ _ _ hfind, hfull,
    replaceFirstList_self _ _ (by
      cases b with
      | nil => exact absurd rfl (baseOperand_ne_nil hb)
      | cons c t => simp)]
  exact convertPowerLoop_done 1 _ (findPowerMatch_none hrepl)

/-- C7 counterexample to the chained-power part of the claim: the code
mangles `2 ^ 3 ^ 2` into `math::powmath::pow((2, 3), 2)` — in particular
it is not the right-associative lowering `math::pow(2, math::pow(3, 2))`
that would evaluate to 512. -/
theorem c7_counterexample :
    convert_power_operator "2 ^ 3 ^ 2" = "math::powmath::pow((2, 3), 2)" ∧
      convert_power_operator "2 ^ 3 ^ 2" ≠ "math::pow(2, math::pow(3, 2))" := by
  constructor
  · rfl
  · decide

/-- C7 witness: the amended theorem instantiated with the identifier base
`var` and the parenthesised exponent `(y + 2)`, with no whitespace after
the caret: `var ^(y + 2)` lowers to `math::pow(var, (y + 2))`. -/
theorem c7_witness :
    convert_power_operator (String.mk ("var".data ++ [' '] ++ '^' :: [] ++ "(y + 2)".data)) =
      String.mk ("math::pow(".data ++ "var".data ++ ", ".data ++ "(y + 2)".data ++ [')']) :=
  (c7_power_operator "var".data [' '] [] "(y + 2)".data
    (Or.inl ⟨by decide, by decide⟩)
    (Or.inr ⟨"y + 2".data, rfl, by decide, by decide, by decide⟩)
    (by decide) (by decide)).1

end Sinqtt
